import Mathlib

/-!
# read_until_eof (src/assets/utils.c)

A shallow embedding of the single routine of the repository,

    char* read_until_eof(int fd)

together with the parts of its environment that it talks to:

* the source behind the descriptor, as the list of answers it gives to the
  successive `read` calls (`Reply`);
* the allocator, as an oracle telling which of the successive `malloc` /
  `realloc` calls succeed;
* memory, as lists of cells, a cell being `none` while nothing was stored in
  it (its content is indeterminate) and `some b` afterwards.

`size_t` is taken to be 64 bits wide: its arithmetic is arithmetic modulo
`2 ^ 64`.
-/

namespace ReadUntilEof

/-! ## Data model -/

/-- A byte. -/
abbrev Byte := Fin 256

/-- A memory cell: `none` is a cell of an allocation that was never written
(indeterminate content), `some b` a cell holding `b`. -/
abbrev Cell := Option Byte

/-- Width of `size_t` in bits. -/
def SIZE_BITS : Nat := 64

/-- Reduction of a natural number to a `size_t` value. -/
def wrap (n : Nat) : Nat := n % 2 ^ SIZE_BITS

/-- The `size_t` difference `a - b`, for `a` and `b` already in range. -/
def wsub (a b : Nat) : Nat := (a + 2 ^ SIZE_BITS - b) % 2 ^ SIZE_BITS

/-- Answer of the source to one `read(fd, buf, count)` call.
`data bs`: the call stored `bs` at `buf` and returned `bs.length`;
`eof`: the call returned `0`;
`err n`: the call returned the negative number `-(n + 1)`. -/
inductive Reply where
  | data (bs : List Byte)
  | eof
  | err (n : Nat)
deriving DecidableEq

/-- Value returned by `read` (the `ssize_t` assigned to `bytes_read`). -/
def Reply.ret : Reply → Int
  | .data bs => (bs.length : Int)
  | .eof => 0
  | .err n => Int.negSucc n

/-- Bytes the call stored through the buffer pointer. -/
def Reply.stored : Reply → List Byte
  | .data bs => bs
  | .eof => []
  | .err _ => []

/-- The local variables of `read_until_eof`. `buffer` is `none` for a null
pointer and `some cells` for a pointer to an allocation of `cells.length`
bytes. `allocs` counts the allocator calls made so far (it selects the next
answer of the allocator oracle and is not a variable of the C code). -/
structure State where
  capacity : Nat
  used : Nat
  buffer : Option (List Cell)
  allocs : Nat
deriving DecidableEq

/-- Program points at which the state is recorded. -/
inductive Point where
  | init      -- after `malloc`, before the loop
  | read      -- a `read(fd, buffer + used, capacity - used)` call is issued
  | advanced  -- after `used += bytes_read`
  | grown     -- after `capacity *= 2; buffer = realloc(buffer, capacity + 1)`
  | shrunk    -- after `buffer = realloc(buffer, used + 1)`
  | done      -- after `buffer[used] = 0`
deriving DecidableEq

/-- How a call ends. -/
inductive Result where
  | returned (buffer : List Cell)  -- `return buffer`, with the allocation pointed to
  | fault      -- a store through a null pointer or outside the allocation
  | blocked    -- the source never answers the pending `read`
deriving DecidableEq

/-- A run: the recorded states in program order, and how the call ended. -/
structure Run where
  trace : List (Point × State)
  result : Result
deriving DecidableEq

/-- The same run with `pre` recorded before it. -/
def Run.after (pre : List (Point × State)) (r : Run) : Run :=
  { r with trace := pre ++ r.trace }

/-! ## Allocator and stores -/

/-- `malloc(size)`: a fresh allocation of indeterminate content, or null. -/
def malloc (ok : Bool) (size : Nat) : Option (List Cell) :=
  if ok then some (List.replicate size none) else none

/-- `realloc(ptr, size)`: an allocation of `size` bytes that keeps the old
content up to the smaller of the two sizes, or null on failure.
`realloc(NULL, size)` is `malloc(size)`. -/
def realloc (ok : Bool) (ptr : Option (List Cell)) (size : Nat) : Option (List Cell) :=
  if ok then some ((ptr.getD [] ++ List.replicate size none).take size) else none

/-- Storing `bs` at offset `off` of an allocation; `none` when a byte would
land outside of it. -/
def storeAt (cells : List Cell) (off : Nat) (bs : List Byte) : Option (List Cell) :=
  if off + bs.length ≤ cells.length then
    some (cells.take off ++ bs.map some ++ cells.drop (off + bs.length))
  else none

/-- What `read` does to the memory at `ptr + off` when it delivers `bs`:
nothing for no byte, otherwise a store, which needs a non-null pointer.
The outer `none` is a faulting store. -/
def store (ptr : Option (List Cell)) (off : Nat) (bs : List Byte) :
    Option (Option (List Cell)) :=
  match bs, ptr with
  | [], p => some p
  | _ :: _, none => none
  | b :: bs, some cells => (storeAt cells off (b :: bs)).map some

/-! ## The routine -/

/-- The statements after the loop:
`buffer = realloc(buffer, used + 1); buffer[used] = 0; return buffer;`. -/
def finish (alloc : Nat → Bool) (s : State) : Run :=
  let s1 : State :=
    { s with buffer := realloc (alloc s.allocs) s.buffer (wrap (s.used + 1)),
             allocs := s.allocs + 1 }
  match s1.buffer with
  | none => ⟨[(.shrunk, s1)], .fault⟩
  | some cells =>
    if s1.used < cells.length then
      let cells1 := cells.set s1.used (some 0)
      ⟨[(.shrunk, s1), (.done, { s1 with buffer := some cells1 })], .returned cells1⟩
    else ⟨[(.shrunk, s1)], .fault⟩

/-- The `while` loop, one iteration per answer of the source:
`while ((bytes_read = read(fd, buffer + used, capacity - used)) > 0)`
`{ used += bytes_read; if (used == capacity) { capacity *= 2; buffer = realloc(buffer, capacity + 1); } }`
followed by the statements after it. -/
def loop (alloc : Nat → Bool) : State → List Reply → Run
  | s, [] => ⟨[(.read, s)], .blocked⟩
  | s, r :: rest =>
    match store s.buffer s.used r.stored with
    | none => ⟨[(.read, s)], .fault⟩
    | some buffer =>
      let bytes_read := r.ret
      if 0 < bytes_read then
        let s1 : State := { s with buffer := buffer, used := wrap (s.used + bytes_read.toNat) }
        if s1.used = s1.capacity then
          let capacity := wrap (s1.capacity * 2)
          let s2 : State :=
            { s1 with capacity := capacity,
                      buffer := realloc (alloc s1.allocs) s1.buffer (wrap (capacity + 1)),
                      allocs := s1.allocs + 1 }
          (loop alloc s2 rest).after [(.read, s), (.advanced, s1), (.grown, s2)]
        else
          (loop alloc s1 rest).after [(.read, s), (.advanced, s1)]
      else
        (finish alloc { s with buffer := buffer }).after [(.read, s)]

/-- The routine `read_until_eof(fd)`: `alloc i` tells whether the `i`-th allocator call
succeeds, `src` lists the answers of the source behind `fd` to the
successive `read` calls. -/
def read_until_eof (alloc : Nat → Bool) (src : List Reply) : Run :=
  let capacity := 4096
  let used := 0
  let s0 : State :=
    { capacity := capacity, used := used,
      buffer := malloc (alloc 0) (wrap (capacity + 1)), allocs := 1 }
  (loop alloc s0 src).after [(.init, s0)]

/-- The allocator that never fails. -/
def allocOk : Nat → Bool := fun _ => true

/-- The allocator whose call number `i` fails and whose other calls succeed. -/
def allocFailAt (i : Nat) : Nat → Bool := fun j => decide (j ≠ i)

/-! ## Observations on a run -/

/-- The `count` arguments of the `read` calls of a trace, in order:
`capacity - used` at each `read` point. -/
def requests : List (Point × State) → List Nat
  | [] => []
  | (.read, s) :: t => wsub s.capacity s.used :: requests t
  | _ :: t => requests t

/-- Each answer returns at most the count that was requested of it. -/
def honours : List Nat → List Reply → Bool
  | count :: counts, r :: rs => decide (r.ret ≤ (count : Int)) && honours counts rs
  | _, _ => true

/-- The capacities installed by the growth steps of a trace, in order. -/
def growths : List (Point × State) → List Nat
  | [] => []
  | (.grown, s) :: t => s.capacity :: growths t
  | _ :: t => growths t

/-- The bytes a source delivers before its first non-positive answer. -/
def delivered : List Reply → List Byte
  | [] => []
  | r :: rest => if 0 < r.ret then r.stored ++ delivered rest else []

/-- Some answer of the source is not positive (end of stream or error). -/
def stops (src : List Reply) : Bool := src.any (fun r => decide (r.ret ≤ 0))

/-- The states in which the `read` calls of a trace are issued, in order. -/
def reads : List (Point × State) → List State
  | [] => []
  | (.read, s) :: t => s :: reads t
  | _ :: t => reads t

/-- What a caller scanning for the terminator finds: the index of the first
cell of the buffer that holds `0` (the length of the buffer if there is none). -/
def firstZero (buf : List Cell) : Nat := buf.findIdx (fun c => decide (c = some 0))

/-! ## Notions used in the proofs -/

/-- The state in which `content` has been read into a buffer of `capacity + 1` cells
whose remaining cells were never written. -/
def headState (capacity : Nat) (content : List Byte) (allocs : Nat) : State :=
  { capacity := capacity, used := content.length,
    buffer := some (content.map some ++ List.replicate (capacity + 1 - content.length) none),
    allocs := allocs }

/-- Loop-head relation between the capacity and the bytes read so far. -/
def Fit (cap used : Nat) : Prop :=
  used < cap ∧ cap ≤ max 4096 (2 * used) ∧ ∃ k, cap = 4096 * 2 ^ k

/-- What a recorded state looks like in a run whose reads are honoured: the
bytes read so far followed by cells never written, in `capacity + 1` cells
inside the loop and in `used + 1` cells after the final `realloc`. -/
def Sound (e : Point × State) : Prop :=
  ∃ cap content a, content.length ≤ cap ∧ cap ≤ max 4096 (2 * content.length) ∧
    (∃ k, cap = 4096 * 2 ^ k) ∧ cap + 1 < 2 ^ 64 ∧
    (e.1 ≠ Point.advanced → content.length < cap) ∧
    e.2 = (match e.1 with
      | Point.shrunk => { capacity := cap, used := content.length,
                          buffer := some (content.map some ++ [none]), allocs := a }
      | Point.done => { capacity := cap, used := content.length,
                        buffer := some (content.map some ++ [some 0]), allocs := a }
      | _ => headState cap content a)

/-- How the capacity may change between two consecutive recorded states: not
at all, except at a growth, which comes right after a read that made `used`
equal to `capacity` and doubles the capacity. -/
def CapacityStep (x y : Point × State) : Prop :=
  if y.1 = Point.grown then
    x.1 = Point.advanced ∧ x.2.used = x.2.capacity ∧ y.2.capacity = 2 * x.2.capacity
  else y.2.capacity = x.2.capacity

/-! ## Arithmetic of `size_t` -/

theorem wrap_of_lt {n : Nat} (h : n < 2 ^ 64) : wrap n = n := by
  unfold wrap SIZE_BITS
  exact Nat.mod_eq_of_lt h

theorem wsub_of_le {a b : Nat} (hb : b ≤ a) (ha : a < 2 ^ 64) : wsub a b = a - b := by
  unfold wsub SIZE_BITS
  have h : a + 2 ^ 64 - b = (a - b) + 2 ^ 64 := by omega
  rw [h, Nat.add_mod_right]
  exact Nat.mod_eq_of_lt (by omega)

/-! ## Clean buffers -/

theorem storeAt_clean (content c : List Byte) (n : Nat) (h : content.length + c.length ≤ n) :
    storeAt (content.map some ++ List.replicate (n - content.length) none) content.length c
      = some ((content ++ c).map some ++ List.replicate (n - (content ++ c).length) none) := by
  unfold storeAt
  have hlen : content.length + c.length
      ≤ (content.map some ++ List.replicate (n - content.length) (none : Cell)).length := by
    simp; omega
  rw [if_pos hlen]
  congr 1
  have h1 : List.take content.length
      (content.map some ++ List.replicate (n - content.length) (none : Cell)) = content.map some := by
    rw [List.take_left']; simp
  have h2 : List.drop (content.length + c.length)
      (content.map some ++ List.replicate (n - content.length) (none : Cell))
      = List.replicate (n - (content ++ c).length) none := by
    rw [List.drop_append_eq_append_drop, List.drop_of_length_le (by simp)]
    simp
    omega
  rw [h1, h2]
  simp

theorem realloc_clean (content : List Byte) (j m : Nat) (h : content.length ≤ m) :
    realloc true (some (content.map some ++ List.replicate j none)) m
      = some (content.map some ++ List.replicate (m - content.length) none) := by
  unfold realloc
  simp only [if_true, Option.getD_some]
  congr 1
  rw [List.append_assoc, List.take_append_eq_append_take]
  rw [List.take_of_length_le (by simp; omega)]
  simp
  omega


theorem err_ret_nonpos (n : Nat) : (Reply.err n).ret ≤ 0 :=
  le_of_lt (Int.negSucc_lt_zero n)

theorem stored_of_ret_nonpos {r : Reply} (h : r.ret ≤ 0) : r.stored = [] := by
  cases r with
  | data bs =>
    have h0 : bs.length = 0 := by
      simp only [Reply.ret] at h
      omega
    simpa [Reply.stored] using h0
  | eof => rfl
  | err n => rfl

theorem loop_stop (alloc : Nat → Bool) (s : State) (r : Reply) (rest : List Reply)
    (h : r.ret ≤ 0) : loop alloc s (r :: rest) = (finish alloc s).after [(.read, s)] := by
  simp [loop, stored_of_ret_nonpos h, store, not_lt.mpr h]

theorem finish_clean (cap : Nat) (content : List Byte) (a j : Nat)
    (h : content.length + 1 < 2 ^ 64) :
    finish allocOk { capacity := cap, used := content.length,
                     buffer := some (content.map some ++ List.replicate j none), allocs := a }
      = ⟨[(.shrunk, { capacity := cap, used := content.length,
                      buffer := some (content.map some ++ [none]), allocs := a + 1 }),
          (.done, { capacity := cap, used := content.length,
                    buffer := some (content.map some ++ [some 0]), allocs := a + 1 })],
         .returned (content.map some ++ [some 0])⟩ := by
  have hr := realloc_clean content j (content.length + 1) (Nat.le_succ _)
  have h1 : content.length + 1 - content.length = 1 := by omega
  rw [h1] at hr
  simp [finish, allocOk, wrap_of_lt h, hr]

theorem loop_data (cap : Nat) (content c : List Byte) (a : Nat) (rest : List Reply)
    (h1 : 1 ≤ c.length) (h2 : content.length + c.length ≤ cap)
    (hcap : cap + 1 < 2 ^ 64) (hlen : content.length + c.length < 2 ^ 63) :
    loop allocOk (headState cap content a) (.data c :: rest) =
      if content.length + c.length = cap then
        (loop allocOk (headState (2 * cap) (content ++ c) (a + 1)) rest).after
          [(.read, headState cap content a), (.advanced, headState cap (content ++ c) a),
           (.grown, headState (2 * cap) (content ++ c) (a + 1))]
      else
        (loop allocOk (headState cap (content ++ c) a) rest).after
          [(.read, headState cap content a), (.advanced, headState cap (content ++ c) a)] := by
  obtain ⟨b, bs, rfl⟩ : ∃ b bs, c = b :: bs := by
    cases c with
    | nil => simp at h1
    | cons b bs => exact ⟨b, bs, rfl⟩
  have hst := storeAt_clean content (b :: bs) (cap + 1) (by omega)
  have hpos : (0 : Int) < ((b :: bs).length : Int) := by
    simp only [List.length_cons]; omega
  have hw : wrap (content.length + (b :: bs).length) = (content ++ b :: bs).length := by
    rw [wrap_of_lt (by omega)]; simp
  by_cases hg : content.length + (b :: bs).length = cap
  · have hg' : (content ++ b :: bs).length = cap := by simpa using hg
    have hw2 : wrap (cap * 2) = 2 * cap := by
      rw [wrap_of_lt (by omega)]; omega
    have hw3 : wrap (2 * cap + 1) = 2 * cap + 1 := wrap_of_lt (by omega)
    have hre := realloc_clean (content ++ b :: bs) (cap + 1 - (content ++ b :: bs).length)
      (2 * cap + 1) (by omega)
    rw [hg'] at hre
    rw [if_pos hg]
    rw [loop]
    simp only [headState, Reply.stored, Reply.ret, store, hst, Option.map_some', hpos, if_true,
      Int.toNat_ofNat, hw, hg', hw2, hw3, allocOk, hre]
  · have hg' : ¬ (content ++ b :: bs).length = cap := by simpa using hg
    rw [if_neg hg]
    rw [loop]
    simp only [headState, Reply.stored, Reply.ret, store, hst, Option.map_some', hpos, if_true,
      Int.toNat_ofNat, hw, hg', if_false]


/-! ## Induction along a run -/

theorem Run.after_result (pre : List (Point × State)) (r : Run) :
    (r.after pre).result = r.result := rfl

theorem Run.after_trace (pre : List (Point × State)) (r : Run) :
    (r.after pre).trace = pre ++ r.trace := rfl

theorem loop_trace_head (alloc : Nat → Bool) (s : State) (src : List Reply) :
    ∃ t, (loop alloc s src).trace = (.read, s) :: t := by
  cases src with
  | nil => exact ⟨[], rfl⟩
  | cons r rest =>
    unfold loop
    split
    · exact ⟨[], rfl⟩
    · dsimp only
      split_ifs <;> exact ⟨_, rfl⟩

theorem honours_head (alloc : Nat → Bool) (s : State) (r : Reply) (rest : List Reply)
    (h : honours (requests (loop alloc s (r :: rest)).trace) (r :: rest) = true) :
    r.ret ≤ (wsub s.capacity s.used : Int) := by
  obtain ⟨t, ht⟩ := loop_trace_head alloc s (r :: rest)
  rw [ht] at h
  simp only [requests, honours, Bool.and_eq_true, decide_eq_true_eq] at h
  exact h.1

theorem Fit.init : Fit 4096 0 := ⟨by omega, by simp, 0, by simp⟩

theorem Fit.keep {cap used n : Nat} (h : Fit cap used) (hn : used + n < cap) :
    Fit cap (used + n) := by
  obtain ⟨_, h2, h3⟩ := h
  refine ⟨hn, ?_, h3⟩
  simp only [le_max_iff] at h2 ⊢
  omega

theorem Fit.grow {cap used : Nat} (h : Fit cap used) : Fit (2 * cap) cap := by
  obtain ⟨h1, _, k, hk⟩ := h
  refine ⟨by omega, ?_, k + 1, ?_⟩
  · simp
  · rw [hk, pow_succ]; ring

theorem Fit.size {cap used : Nat} (h : Fit cap used) (hu : used < 2 ^ 63) :
    cap + 1 < 2 ^ 64 := by
  obtain ⟨_, h2, _⟩ := h
  simp only [le_max_iff] at h2
  omega

/-- Induction along the loop from a clean state, for a source that returns at
most the requested count at each read and delivers fewer than `2 ^ 63` bytes:
the three ways an iteration can go, each with the equation it unfolds to. -/
theorem loop_induction
    (motive : Nat → List Byte → Nat → List Reply → Prop)
    (nil : ∀ cap content a, Fit cap content.length → content.length < 2 ^ 63 →
      motive cap content a [])
    (stop : ∀ cap content a r rest, Fit cap content.length → content.length < 2 ^ 63 →
      r.ret ≤ 0 →
      loop allocOk (headState cap content a) (r :: rest)
        = (finish allocOk (headState cap content a)).after [(.read, headState cap content a)] →
      motive cap content a (r :: rest))
    (keep : ∀ cap content a c rest, Fit cap content.length → 1 ≤ c.length →
      content.length + c.length < cap → content.length + c.length < 2 ^ 63 →
      loop allocOk (headState cap content a) (.data c :: rest)
        = (loop allocOk (headState cap (content ++ c) a) rest).after
            [(.read, headState cap content a), (.advanced, headState cap (content ++ c) a)] →
      motive cap (content ++ c) a rest → motive cap content a (.data c :: rest))
    (grow : ∀ cap content a c rest, Fit cap content.length → 1 ≤ c.length →
      content.length + c.length = cap → content.length + c.length < 2 ^ 63 →
      loop allocOk (headState cap content a) (.data c :: rest)
        = (loop allocOk (headState (2 * cap) (content ++ c) (a + 1)) rest).after
            [(.read, headState cap content a), (.advanced, headState cap (content ++ c) a),
             (.grown, headState (2 * cap) (content ++ c) (a + 1))] →
      motive (2 * cap) (content ++ c) (a + 1) rest → motive cap content a (.data c :: rest)) :
    ∀ (src : List Reply) (cap : Nat) (content : List Byte) (a : Nat),
      Fit cap content.length →
      honours (requests (loop allocOk (headState cap content a) src).trace) src = true →
      content.length + (delivered src).length < 2 ^ 63 →
      motive cap content a src := by
  intro src
  induction src with
  | nil => intro cap content a hfit _ hlen; exact nil cap content a hfit (by omega)
  | cons r rest ih =>
    intro cap content a hfit hhon hlen
    by_cases hpos : 0 < r.ret
    · obtain ⟨c, rfl⟩ : ∃ c, r = .data c := by
        cases r with
        | data bs => exact ⟨bs, rfl⟩
        | eof => simp [Reply.ret] at hpos
        | err n => simp [Reply.ret] at hpos
      have hc : 1 ≤ c.length := by
        simp only [Reply.ret] at hpos; omega
      have hdel : delivered (.data c :: rest) = c ++ delivered rest := by
        simp [delivered, hpos, Reply.stored]
      rw [hdel, List.length_append] at hlen
      have hsize := hfit.size (show content.length < 2 ^ 63 by omega)
      have hcount := honours_head _ _ _ _ hhon
      simp only [headState, Reply.ret] at hcount
      rw [wsub_of_le (by have := hfit.1; omega) (by omega)] at hcount
      have hle : content.length + c.length ≤ cap := by
        have := hfit.1; omega
      have hstep := loop_data cap content c a rest hc hle hsize (by omega)
      by_cases hg : content.length + c.length = cap
      · rw [if_pos hg] at hstep
        rw [hstep] at hhon
        simp only [Run.after_trace, List.cons_append, List.nil_append, requests, honours,
          Bool.and_eq_true] at hhon
        have hfit2 : Fit (2 * cap) (content ++ c).length := by
          rw [List.length_append, hg]; exact hfit.grow
        exact grow cap content a c rest hfit hc hg (by omega) hstep
          (ih (2 * cap) (content ++ c) (a + 1) hfit2 hhon.2
            (by rw [List.length_append]; omega))
      · rw [if_neg hg] at hstep
        rw [hstep] at hhon
        simp only [Run.after_trace, List.cons_append, List.nil_append, requests, honours,
          Bool.and_eq_true] at hhon
        have hlt : content.length + c.length < cap := by omega
        have hfit2 : Fit cap (content ++ c).length := by
          rw [List.length_append]; exact hfit.keep hlt
        exact keep cap content a c rest hfit hc hlt (by omega) hstep
          (ih cap (content ++ c) a hfit2 hhon.2 (by rw [List.length_append]; omega))
    · have hle : r.ret ≤ 0 := not_lt.mp hpos
      exact stop cap content a r rest hfit (by omega) hle (loop_stop _ _ _ _ hle)


/-! ## The run as a whole -/

theorem read_until_eof_eq (src : List Reply) :
    read_until_eof allocOk src
      = (loop allocOk (headState 4096 [] 1) src).after [(.init, headState 4096 [] 1)] := by
  have h : malloc true (wrap (4096 + 1)) = (headState 4096 [] 1).buffer := by
    rw [wrap_of_lt (by norm_num)]
    simp only [malloc, headState, List.map_nil, List.nil_append, if_true, List.length_nil]
  simp only [read_until_eof, allocOk, h]
  rfl

theorem requests_init (s : State) (t : List (Point × State)) :
    requests ((.init, s) :: t) = requests t := rfl

theorem honours_of_run {src : List Reply}
    (h : honours (requests (read_until_eof allocOk src).trace) src = true) :
    honours (requests (loop allocOk (headState 4096 [] 1) src).trace) src = true := by
  rw [read_until_eof_eq] at h
  simpa [Run.after_trace, requests_init] using h

theorem delivered_data (c : List Byte) (rest : List Reply) (h : 1 ≤ c.length) :
    delivered (.data c :: rest) = c ++ delivered rest := by
  have hpos : (0 : Int) < (Reply.data c).ret := by
    simp only [Reply.ret]; omega
  simp [delivered, hpos, Reply.stored]

theorem delivered_stop (r : Reply) (rest : List Reply) (h : r.ret ≤ 0) :
    delivered (r :: rest) = [] := by
  simp [delivered, not_lt.mpr h]

theorem stops_data (c : List Byte) (rest : List Reply) (h : 1 ≤ c.length) :
    stops (.data c :: rest) = stops rest := by
  have hpos : ¬ (Reply.data c).ret ≤ 0 := by
    simp only [Reply.ret]; omega
  simp [stops, hpos]

theorem loop_result (src : List Reply) (cap : Nat) (content : List Byte) (a : Nat)
    (hfit : Fit cap content.length)
    (hhon : honours (requests (loop allocOk (headState cap content a) src).trace) src = true)
    (hlen : content.length + (delivered src).length < 2 ^ 63)
    (hstop : stops src = true) :
    (loop allocOk (headState cap content a) src).result
      = .returned ((content ++ delivered src).map some ++ [some 0]) := by
  revert hstop
  refine loop_induction
    (fun cap content a src => stops src = true →
      (loop allocOk (headState cap content a) src).result
        = .returned ((content ++ delivered src).map some ++ [some 0]))
    ?_ ?_ ?_ ?_ src cap content a hfit hhon hlen
  · intro cap content a _ _ h
    simp [stops] at h
  · intro cap content a r rest _ hlt hle heq _
    rw [heq, Run.after_result, delivered_stop r rest hle, List.append_nil]
    simp only [headState]
    rw [finish_clean cap content a _ (by omega)]
  · intro cap content a c rest _ hc _ _ heq ih hs
    rw [heq, Run.after_result, ih (by rwa [stops_data c rest hc] at hs),
      delivered_data c rest hc, List.append_assoc]
  · intro cap content a c rest _ hc _ _ heq ih hs
    rw [heq, Run.after_result, ih (by rwa [stops_data c rest hc] at hs),
      delivered_data c rest hc, List.append_assoc]

theorem run_result (src : List Reply)
    (hhon : honours (requests (read_until_eof allocOk src).trace) src = true)
    (hlen : (delivered src).length < 2 ^ 63) (hstop : stops src = true) :
    (read_until_eof allocOk src).result = .returned ((delivered src).map some ++ [some 0]) := by
  rw [read_until_eof_eq, Run.after_result]
  have h := loop_result src 4096 [] 1 Fit.init (honours_of_run hhon) (by simpa using hlen) hstop
  simpa using h

/-- An answer that is not positive ends the loop whatever it is and whatever
would follow it. -/
theorem loop_stop_congr (alloc : Nat → Bool) (pre : List Reply) (r r' : Reply)
    (rest rest' : List Reply) (h : r.ret ≤ 0) (h' : r'.ret ≤ 0) :
    ∀ s, loop alloc s (pre ++ r :: rest) = loop alloc s (pre ++ r' :: rest') := by
  induction pre with
  | nil => intro s; rw [List.nil_append, List.nil_append, loop_stop _ _ _ _ h, loop_stop _ _ _ _ h']
  | cons p pre ih =>
    intro s
    simp only [List.cons_append, loop, List.append_eq, ih]

theorem honours_last (counts : List Nat) (pre : List Reply) (r r' : Reply)
    (h : r.ret ≤ 0) (h' : r'.ret ≤ 0) :
    honours counts (pre ++ [r]) = honours counts (pre ++ [r']) := by
  induction pre generalizing counts with
  | nil =>
    cases counts with
    | nil => rfl
    | cons c cs =>
      have h1 : r.ret ≤ (c : Int) := by omega
      have h2 : r'.ret ≤ (c : Int) := by omega
      simp [honours, h1, h2]
  | cons p pre ih =>
    cases counts with
    | nil => rfl
    | cons c cs => simp [honours, ih]

theorem delivered_chunks (chunks : List (List Byte)) (r : Reply) (rest : List Reply)
    (hpos : ∀ c ∈ chunks, 1 ≤ c.length) (h : r.ret ≤ 0) :
    delivered (chunks.map Reply.data ++ r :: rest) = chunks.flatten := by
  induction chunks with
  | nil => simpa using delivered_stop r rest h
  | cons c cs ih =>
    have hc := hpos c (List.mem_cons_self _ _)
    rw [List.map_cons, List.cons_append, delivered_data _ _ hc,
      ih (fun x hx => hpos x (List.mem_cons_of_mem _ hx))]
    simp

theorem stops_chunks (pre : List Reply) (r : Reply) (rest : List Reply) (h : r.ret ≤ 0) :
    stops (pre ++ r :: rest) = true := by
  simp [stops, h]

theorem loop_blocked (src : List Reply) (cap : Nat) (content : List Byte) (a : Nat)
    (hfit : Fit cap content.length)
    (hhon : honours (requests (loop allocOk (headState cap content a) src).trace) src = true)
    (hlen : content.length + (delivered src).length < 2 ^ 63)
    (hstop : stops src = false) :
    (loop allocOk (headState cap content a) src).result = .blocked := by
  revert hstop
  refine loop_induction
    (fun cap content a src => stops src = false →
      (loop allocOk (headState cap content a) src).result = .blocked)
    ?_ ?_ ?_ ?_ src cap content a hfit hhon hlen
  · intro cap content a _ _ _
    rfl
  · intro cap content a r rest _ _ hle _ h
    simp [stops, hle] at h
  · intro cap content a c rest _ hc _ _ heq ih hs
    rw [heq, Run.after_result, ih (by rwa [stops_data c rest hc] at hs)]
  · intro cap content a c rest _ hc _ _ heq ih hs
    rw [heq, Run.after_result, ih (by rwa [stops_data c rest hc] at hs)]

theorem getLast?_append_some {α : Type} (pre t : List α) (x : α) (h : t.getLast? = some x) :
    (pre ++ t).getLast? = some x := by
  rw [List.getLast?_append, h]
  rfl

/-- The state in which a run that stops leaves the routine. -/
theorem loop_final (src : List Reply) (cap : Nat) (content : List Byte) (a : Nat)
    (hfit : Fit cap content.length)
    (hhon : honours (requests (loop allocOk (headState cap content a) src).trace) src = true)
    (hlen : content.length + (delivered src).length < 2 ^ 63)
    (hstop : stops src = true) :
    ∃ s, (loop allocOk (headState cap content a) src).trace.getLast? = some (.done, s) ∧
      s.used = (content ++ delivered src).length ∧
      s.buffer = some ((content ++ delivered src).map some ++ [some 0]) ∧
      Fit s.capacity s.used := by
  revert hstop
  refine loop_induction
    (fun cap content a src => stops src = true →
      ∃ s, (loop allocOk (headState cap content a) src).trace.getLast? = some (.done, s) ∧
        s.used = (content ++ delivered src).length ∧
        s.buffer = some ((content ++ delivered src).map some ++ [some 0]) ∧
        Fit s.capacity s.used)
    ?_ ?_ ?_ ?_ src cap content a hfit hhon hlen
  · intro cap content a _ _ h
    simp [stops] at h
  · intro cap content a r rest hf hlt hle heq _
    rw [heq, delivered_stop r rest hle, List.append_nil]
    simp only [headState]
    rw [finish_clean cap content a _ (by omega)]
    exact ⟨_, rfl, rfl, rfl, hf⟩
  · intro cap content a c rest _ hc _ _ heq ih hs
    obtain ⟨s, h1, h2, h3, h4⟩ := ih (by rwa [stops_data c rest hc] at hs)
    rw [heq, delivered_data c rest hc, ← List.append_assoc]
    exact ⟨s, getLast?_append_some _ _ _ h1, h2, h3, h4⟩
  · intro cap content a c rest _ hc _ _ heq ih hs
    obtain ⟨s, h1, h2, h3, h4⟩ := ih (by rwa [stops_data c rest hc] at hs)
    rw [heq, delivered_data c rest hc, ← List.append_assoc]
    exact ⟨s, getLast?_append_some _ _ _ h1, h2, h3, h4⟩

theorem run_final (src : List Reply)
    (hhon : honours (requests (read_until_eof allocOk src).trace) src = true)
    (hlen : (delivered src).length < 2 ^ 63) (hstop : stops src = true) :
    ∃ s, (read_until_eof allocOk src).trace.getLast? = some (.done, s) ∧
      s.used = (delivered src).length ∧
      s.buffer = some ((delivered src).map some ++ [some 0]) ∧
      Fit s.capacity s.used := by
  obtain ⟨s, h1, h2, h3, h4⟩ :=
    loop_final src 4096 [] 1 Fit.init (honours_of_run hhon) (by simpa using hlen) hstop
  refine ⟨s, ?_, by simpa using h2, by simpa using h3, h4⟩
  rw [read_until_eof_eq, Run.after_trace]
  exact getLast?_append_some _ _ _ h1

theorem run_blocked (src : List Reply)
    (hhon : honours (requests (read_until_eof allocOk src).trace) src = true)
    (hlen : (delivered src).length < 2 ^ 63) (hstop : stops src = false) :
    (read_until_eof allocOk src).result = .blocked := by
  rw [read_until_eof_eq, Run.after_result]
  exact loop_blocked src 4096 [] 1 Fit.init (honours_of_run hhon) (by simpa using hlen) hstop

/-! ## Every recorded state -/

theorem Sound.head (p : Point) (cap : Nat) (content : List Byte) (a : Nat)
    (hp : p = Point.init ∨ p = Point.read ∨ p = Point.grown)
    (hfit : Fit cap content.length) (hlen : content.length < 2 ^ 63) :
    Sound (p, headState cap content a) := by
  refine ⟨cap, content, a, le_of_lt hfit.1, hfit.2.1, hfit.2.2, hfit.size hlen,
    fun _ => hfit.1, ?_⟩
  rcases hp with rfl | rfl | rfl <;> rfl

theorem Sound.advanced (cap : Nat) (content c : List Byte) (a : Nat)
    (hfit : Fit cap content.length) (hle : content.length + c.length ≤ cap)
    (hlen : content.length < 2 ^ 63) :
    Sound (Point.advanced, headState cap (content ++ c) a) := by
  obtain ⟨_, h2, h3⟩ := hfit
  refine ⟨cap, content ++ c, a, by simpa using hle, ?_, h3,
    Fit.size ⟨by assumption, h2, h3⟩ hlen, fun h => absurd rfl h, rfl⟩
  simp only [le_max_iff, List.length_append] at h2 ⊢
  omega

theorem Sound.finish (cap : Nat) (content : List Byte) (a : Nat)
    (hfit : Fit cap content.length) (hlen : content.length < 2 ^ 63) :
    ∀ e ∈ (finish allocOk (headState cap content a)).trace, Sound e := by
  simp only [headState]
  rw [finish_clean cap content a _ (by omega)]
  intro e he
  simp only [List.mem_cons, List.mem_singleton, List.not_mem_nil, or_false] at he
  rcases he with rfl | rfl
  · exact ⟨cap, content, a + 1, le_of_lt hfit.1, hfit.2.1, hfit.2.2, hfit.size hlen,
      fun _ => hfit.1, rfl⟩
  · exact ⟨cap, content, a + 1, le_of_lt hfit.1, hfit.2.1, hfit.2.2, hfit.size hlen,
      fun _ => hfit.1, rfl⟩

theorem loop_sound (src : List Reply) (cap : Nat) (content : List Byte) (a : Nat)
    (hfit : Fit cap content.length)
    (hhon : honours (requests (loop allocOk (headState cap content a) src).trace) src = true)
    (hlen : content.length + (delivered src).length < 2 ^ 63) :
    ∀ e ∈ (loop allocOk (headState cap content a) src).trace, Sound e := by
  refine loop_induction
    (fun cap content a src => ∀ e ∈ (loop allocOk (headState cap content a) src).trace, Sound e)
    ?_ ?_ ?_ ?_ src cap content a hfit hhon hlen
  · intro cap content a hf hl e he
    simp only [loop, List.mem_singleton] at he
    subst he
    exact Sound.head _ _ _ _ (Or.inr (Or.inl rfl)) hf hl
  · intro cap content a r rest hf hl _ heq e he
    rw [heq, Run.after_trace, List.mem_append, List.mem_singleton] at he
    rcases he with rfl | he
    · exact Sound.head _ _ _ _ (Or.inr (Or.inl rfl)) hf hl
    · exact Sound.finish cap content a hf hl e he
  · intro cap content a c rest hf _ hlt hl heq ih e he
    rw [heq, Run.after_trace, List.mem_append] at he
    rcases he with he | he
    · simp only [List.mem_cons, List.mem_singleton, List.not_mem_nil, or_false] at he
      rcases he with rfl | rfl
      · exact Sound.head _ _ _ _ (Or.inr (Or.inl rfl)) hf (by omega)
      · exact Sound.advanced cap content c a hf (le_of_lt hlt) (by omega)
    · exact ih e he
  · intro cap content a c rest hf _ hg hl heq ih e he
    rw [heq, Run.after_trace, List.mem_append] at he
    rcases he with he | he
    · simp only [List.mem_cons, List.mem_singleton, List.not_mem_nil, or_false] at he
      rcases he with rfl | rfl | rfl
      · exact Sound.head _ _ _ _ (Or.inr (Or.inl rfl)) hf (by omega)
      · exact Sound.advanced cap content c a hf (le_of_eq hg) (by omega)
      · refine Sound.head _ _ _ _ (Or.inr (Or.inr rfl)) ?_ (by simpa using hl)
        rw [List.length_append, hg]
        exact hf.grow
    · exact ih e he

theorem run_sound (src : List Reply)
    (hhon : honours (requests (read_until_eof allocOk src).trace) src = true)
    (hlen : (delivered src).length < 2 ^ 63) :
    ∀ e ∈ (read_until_eof allocOk src).trace, Sound e := by
  intro e he
  rw [read_until_eof_eq, Run.after_trace, List.mem_append, List.mem_singleton] at he
  rcases he with rfl | he
  · exact Sound.head _ _ _ _ (Or.inl rfl) Fit.init (by simp)
  · exact loop_sound src 4096 [] 1 Fit.init (honours_of_run hhon) (by simpa using hlen) e he

theorem Sound.used_le {e : Point × State} (h : Sound e) : e.2.used ≤ e.2.capacity := by
  obtain ⟨cap, content, a, h1, _, _, _, _, h6⟩ := h
  obtain ⟨p, s⟩ := e
  cases p <;> (simp only [headState] at h6; subst h6; exact h1)

theorem Sound.capacity_pow {e : Point × State} (h : Sound e) :
    ∃ k, e.2.capacity = 4096 * 2 ^ k := by
  obtain ⟨cap, content, a, _, _, h3, _, _, h6⟩ := h
  obtain ⟨p, s⟩ := e
  cases p <;> (simp only [headState] at h6; subst h6; exact h3)


/-! ## Growth -/

theorem growths_append (pre t : List (Point × State)) :
    growths (pre ++ t) = growths pre ++ growths t := by
  induction pre with
  | nil => rfl
  | cons e pre ih =>
    obtain ⟨p, s⟩ := e
    cases p <;> simp [growths, ih]

theorem doublings_succ (cap n : Nat) :
    2 * cap :: (List.range n).map (fun i => 2 * cap * 2 ^ (i + 1))
      = (List.range (n + 1)).map (fun i => cap * 2 ^ (i + 1)) := by
  rw [List.range_succ_eq_map, List.map_cons, List.map_map]
  congr 1
  · ring
  · apply List.map_congr_left
    intro i _
    simp only [Function.comp, pow_succ]
    ring

/-- The growth steps of a run that stops install the successive doubles of
the capacity it started with, the last of them being the capacity at exit. -/
theorem loop_growths (src : List Reply) (cap : Nat) (content : List Byte) (a : Nat)
    (hfit : Fit cap content.length)
    (hhon : honours (requests (loop allocOk (headState cap content a) src).trace) src = true)
    (hlen : content.length + (delivered src).length < 2 ^ 63)
    (hstop : stops src = true) :
    ∃ s n, (loop allocOk (headState cap content a) src).trace.getLast? = some (.done, s) ∧
      s.capacity = cap * 2 ^ n ∧
      growths (loop allocOk (headState cap content a) src).trace
        = (List.range n).map (fun i => cap * 2 ^ (i + 1)) := by
  revert hstop
  refine loop_induction
    (fun cap content a src => stops src = true →
      ∃ s n, (loop allocOk (headState cap content a) src).trace.getLast? = some (.done, s) ∧
        s.capacity = cap * 2 ^ n ∧
        growths (loop allocOk (headState cap content a) src).trace
          = (List.range n).map (fun i => cap * 2 ^ (i + 1)))
    ?_ ?_ ?_ ?_ src cap content a hfit hhon hlen
  · intro cap content a _ _ h
    simp [stops] at h
  · intro cap content a r rest _ hlt _ heq _
    rw [heq]
    simp only [headState]
    rw [finish_clean cap content a _ (by omega)]
    exact ⟨_, 0, rfl, by simp, rfl⟩
  · intro cap content a c rest _ hc _ _ heq ih hs
    obtain ⟨s, n, h1, h2, h3⟩ := ih (by rwa [stops_data c rest hc] at hs)
    rw [heq, Run.after_trace, growths_append, h3]
    exact ⟨s, n, getLast?_append_some _ _ _ h1, h2, rfl⟩
  · intro cap content a c rest _ hc _ _ heq ih hs
    obtain ⟨s, n, h1, h2, h3⟩ := ih (by rwa [stops_data c rest hc] at hs)
    rw [heq, Run.after_trace, growths_append, h3]
    refine ⟨s, n + 1, getLast?_append_some _ _ _ h1, ?_, ?_⟩
    · rw [h2, pow_succ]; ring
    · exact doublings_succ cap n

theorem chain_read (x : Point × State) (alloc : Nat → Bool) (s : State) (src : List Reply)
    (hx : x.2.capacity = s.capacity)
    (h : List.Chain' CapacityStep (loop alloc s src).trace) :
    List.Chain' CapacityStep (x :: (loop alloc s src).trace) := by
  obtain ⟨t, ht⟩ := loop_trace_head alloc s src
  rw [ht] at h ⊢
  refine List.Chain'.cons ?_ h
  simp [CapacityStep, hx]

theorem loop_chain (src : List Reply) (cap : Nat) (content : List Byte) (a : Nat)
    (hfit : Fit cap content.length)
    (hhon : honours (requests (loop allocOk (headState cap content a) src).trace) src = true)
    (hlen : content.length + (delivered src).length < 2 ^ 63) :
    List.Chain' CapacityStep (loop allocOk (headState cap content a) src).trace := by
  refine loop_induction
    (fun cap content a src =>
      List.Chain' CapacityStep (loop allocOk (headState cap content a) src).trace)
    ?_ ?_ ?_ ?_ src cap content a hfit hhon hlen
  · intro cap content a _ _
    simp [loop]
  · intro cap content a r rest _ hlt _ heq
    rw [heq]
    simp only [headState]
    rw [finish_clean cap content a _ (by omega)]
    simp [Run.after_trace, CapacityStep]
  · intro cap content a c rest _ _ _ _ heq ih
    rw [heq, Run.after_trace]
    refine List.Chain'.cons ?_ (chain_read _ _ _ _ rfl ih)
    simp [CapacityStep, headState]
  · intro cap content a c rest _ _ hg _ heq ih
    rw [heq, Run.after_trace]
    refine List.Chain'.cons ?_ (List.Chain'.cons ?_ (chain_read _ _ _ _ rfl ih))
    · simp [CapacityStep, headState]
    · simp [CapacityStep, headState, hg]

/-- A power-of-two multiple of 4096 above `used` and at most
`max 4096 (2 * used)` is the least such multiple above `used`. -/
theorem Fit.least {cap used : Nat} (h : Fit cap used) (j : Nat) (hj : used < 4096 * 2 ^ j) :
    cap ≤ 4096 * 2 ^ j := by
  obtain ⟨_, h2, k, rfl⟩ := h
  rcases Nat.lt_or_ge j k with hjk | hjk
  · exfalso
    have hpow : 2 ^ (j + 1) ≤ 2 ^ k := Nat.pow_le_pow_right (by norm_num) hjk
    have h1 : 1 ≤ 2 ^ j := Nat.one_le_two_pow
    rw [pow_succ] at hpow
    simp only [le_max_iff] at h2
    omega
  · exact Nat.mul_le_mul_left _ (Nat.pow_le_pow_right (by norm_num) hjk)

theorem exponent_100000 (n : Nat) (h : Fit (4096 * 2 ^ n) 100000) : n = 5 := by
  obtain ⟨h1, h2, _⟩ := h
  simp only [le_max_iff] at h2
  have hlo : 4 < n := by
    by_contra hn
    have : 2 ^ n ≤ 2 ^ 4 := Nat.pow_le_pow_right (by norm_num) (by omega)
    omega
  have hhi : n < 6 := by
    by_contra hn
    have : 2 ^ 6 ≤ 2 ^ n := Nat.pow_le_pow_right (by norm_num) (by omega)
    omega
  omega


/-! ## The capacity boundary -/

theorem stops_of_delivered_nil (src : List Reply) (hstop : stops src = true)
    (hdel : (delivered src).length = 0) : ∃ r rest, src = r :: rest ∧ r.ret ≤ 0 := by
  cases src with
  | nil => simp [stops] at hstop
  | cons r rest =>
    refine ⟨r, rest, rfl, ?_⟩
    by_contra hpos
    have hpos : 0 < r.ret := not_le.mp hpos
    cases r with
    | data c =>
      have hc : 1 ≤ c.length := by
        simp only [Reply.ret] at hpos; omega
      rw [delivered_data c rest hc, List.length_append] at hdel
      omega
    | eof => simp [Reply.ret] at hpos
    | err n => exact absurd (err_ret_nonpos n) (not_le.mpr hpos)

/-- A run that has read exactly 4096 bytes when it stops ends with the growth
to 8192, a read at offset 4096, the final `realloc` and the terminator store. -/
theorem loop_boundary (src : List Reply) (cap : Nat) (content : List Byte) (a : Nat)
    (hfit : Fit cap content.length)
    (hhon : honours (requests (loop allocOk (headState cap content a) src).trace) src = true)
    (hlen : content.length + (delivered src).length < 2 ^ 63)
    (hcap : cap = 4096) (hstop : stops src = true)
    (htotal : content.length + (delivered src).length = 4096) :
    ∃ pre a',
      (loop allocOk (headState cap content a) src).trace = pre ++
        [(.advanced, headState 4096 (content ++ delivered src) a'),
         (.grown, headState 8192 (content ++ delivered src) (a' + 1)),
         (.read, headState 8192 (content ++ delivered src) (a' + 1)),
         (.shrunk, { capacity := 8192, used := (content ++ delivered src).length,
                     buffer := some ((content ++ delivered src).map some ++ [none]),
                     allocs := a' + 1 + 1 }),
         (.done, { capacity := 8192, used := (content ++ delivered src).length,
                   buffer := some ((content ++ delivered src).map some ++ [some 0]),
                   allocs := a' + 1 + 1 })] := by
  revert hcap hstop htotal
  refine loop_induction
    (fun cap content a src => cap = 4096 → stops src = true →
      content.length + (delivered src).length = 4096 →
      ∃ pre a',
        (loop allocOk (headState cap content a) src).trace = pre ++
          [(.advanced, headState 4096 (content ++ delivered src) a'),
           (.grown, headState 8192 (content ++ delivered src) (a' + 1)),
           (.read, headState 8192 (content ++ delivered src) (a' + 1)),
           (.shrunk, { capacity := 8192, used := (content ++ delivered src).length,
                       buffer := some ((content ++ delivered src).map some ++ [none]),
                       allocs := a' + 1 + 1 }),
           (.done, { capacity := 8192, used := (content ++ delivered src).length,
                     buffer := some ((content ++ delivered src).map some ++ [some 0]),
                     allocs := a' + 1 + 1 })])
    ?_ ?_ ?_ ?_ src cap content a hfit hhon hlen
  · intro cap content a _ _ _ h _
    simp [stops] at h
  · intro cap content a r rest hf _ hle _ hcap _ htotal
    rw [delivered_stop r rest hle] at htotal
    have := hf.1
    simp only [List.length_nil] at htotal
    omega
  · intro cap content a c rest _ hc _ _ heq ih hcap hs htotal
    rw [delivered_data c rest hc] at htotal ⊢
    rw [← List.append_assoc]
    obtain ⟨pre, a', h⟩ := ih hcap (by rwa [stops_data c rest hc] at hs)
      (by simp only [List.length_append] at htotal ⊢; omega)
    rw [heq, Run.after_trace, h, ← List.append_assoc]
    exact ⟨_, a', rfl⟩
  · intro cap content a c rest _ hc hg _ heq _ hcap hs htotal
    rw [delivered_data c rest hc] at htotal ⊢
    rw [stops_data c rest hc] at hs
    simp only [List.length_append] at htotal
    obtain ⟨r, rest', rfl, hle⟩ := stops_of_delivered_nil rest hs (by omega)
    rw [delivered_stop r rest' hle, List.append_nil]
    subst hcap
    rw [heq, loop_stop _ _ _ _ hle]
    simp only [headState]
    rw [finish_clean (2 * 4096) (content ++ c) (a + 1)
      (2 * 4096 + 1 - (content ++ c).length) (by simp only [List.length_append]; omega)]
    exact ⟨[(.read, headState 4096 content a)], a, rfl⟩

/-! ## Runs with a failing allocator -/

theorem finish_returned (alloc : Nat → Bool) (s : State) (buf : List Cell)
    (h : (finish alloc s).result = .returned buf) :
    ∃ s', (finish alloc s).trace.getLast? = some (.done, s') ∧ s'.buffer = some buf ∧
      buf.length = s'.used + 1 ∧ buf[s'.used]? = some (some 0) := by
  unfold finish at h ⊢
  cases hok : alloc s.allocs with
  | false =>
    simp [realloc, hok] at h
  | true =>
    simp only [realloc, hok, if_true] at h ⊢
    have hlen : ((s.buffer.getD [] ++ List.replicate (wrap (s.used + 1)) none).take
        (wrap (s.used + 1))).length = wrap (s.used + 1) := by
      simp
    have hw : wrap (s.used + 1) ≤ s.used + 1 := Nat.mod_le _ _
    by_cases hlt : s.used < wrap (s.used + 1)
    · rw [hlen, if_pos hlt] at h ⊢
      simp only [Result.returned.injEq] at h
      subst h
      refine ⟨_, rfl, rfl, ?_, ?_⟩
      · rw [List.length_set, hlen]
        show wrap (s.used + 1) = s.used + 1
        omega
      · rw [List.getElem?_set_self (by rw [hlen]; exact hlt)]
    · rw [hlen, if_neg hlt] at h
      cases h

theorem loop_returned (alloc : Nat → Bool) (src : List Reply) :
    ∀ (s : State) (buf : List Cell), (loop alloc s src).result = .returned buf →
      ∃ s', (loop alloc s src).trace.getLast? = some (.done, s') ∧ s'.buffer = some buf ∧
        buf.length = s'.used + 1 ∧ buf[s'.used]? = some (some 0) := by
  induction src with
  | nil => intro s buf h; cases h
  | cons r rest ih =>
    intro s buf h
    unfold loop at h ⊢
    split at h
    · cases h
    · rename_i buffer heq
      simp only [heq]
      dsimp only at h ⊢
      split_ifs at h ⊢
      · obtain ⟨s', h1, h2⟩ := ih _ buf h
        exact ⟨s', getLast?_append_some _ _ _ h1, h2⟩
      · obtain ⟨s', h1, h2⟩ := ih _ buf h
        exact ⟨s', getLast?_append_some _ _ _ h1, h2⟩
      · obtain ⟨s', h1, h2⟩ := finish_returned alloc _ buf h
        exact ⟨s', getLast?_append_some _ _ _ h1, h2⟩

theorem finish_null (alloc : Nat → Bool) (s0 s : State)
    (hmem : (Point.shrunk, s) ∈ (finish alloc s0).trace) (hnull : s.buffer = none) :
    (finish alloc s0).result = .fault := by
  unfold finish at hmem ⊢
  dsimp only at hmem ⊢
  split
  · rfl
  · rename_i cells hcells
    split_ifs with hlt
    · rw [hcells] at hmem
      simp only [hlt, if_true, List.mem_cons, Prod.mk.injEq, true_and, reduceCtorEq,
        false_and, List.not_mem_nil, or_false] at hmem
      subst hmem
      cases hnull
    · rfl

theorem loop_null (alloc : Nat → Bool) (src : List Reply) :
    ∀ (s0 s : State), (Point.shrunk, s) ∈ (loop alloc s0 src).trace → s.buffer = none →
      (loop alloc s0 src).result = .fault := by
  induction src with
  | nil =>
    intro s0 s hmem _
    simp [loop] at hmem
  | cons r rest ih =>
    intro s0 s hmem hnull
    unfold loop at hmem ⊢
    split
    · rfl
    · rename_i buffer heq
      simp only [heq] at hmem
      dsimp only at hmem ⊢
      split_ifs at hmem ⊢
      · simp only [Run.after_trace, List.mem_append, List.mem_cons, Prod.mk.injEq,
          reduceCtorEq, false_and, List.not_mem_nil, or_false, false_or] at hmem
        exact ih _ s hmem hnull
      · simp only [Run.after_trace, List.mem_append, List.mem_cons, Prod.mk.injEq,
          reduceCtorEq, false_and, List.not_mem_nil, or_false, false_or] at hmem
        exact ih _ s hmem hnull
      · simp only [Run.after_trace, List.mem_append, List.mem_cons, Prod.mk.injEq,
          reduceCtorEq, false_and, List.not_mem_nil, or_false, false_or] at hmem
        exact finish_null alloc _ s hmem hnull

/-! ## Read requests -/

theorem requests_eq_reads (t : List (Point × State)) :
    requests t = (reads t).map (fun s => wsub s.capacity s.used) := by
  induction t with
  | nil => rfl
  | cons e t ih =>
    obtain ⟨p, s⟩ := e
    cases p <;> simp [requests, reads, ih]

theorem mem_reads (t : List (Point × State)) (s : State) :
    s ∈ reads t ↔ (Point.read, s) ∈ t := by
  induction t with
  | nil => simp [reads]
  | cons e t ih =>
    obtain ⟨p, s'⟩ := e
    cases p <;> simp [reads, ih]

theorem requests_append (pre t : List (Point × State)) :
    requests (pre ++ t) = requests pre ++ requests t := by
  induction pre with
  | nil => rfl
  | cons e pre ih =>
    obtain ⟨p, s⟩ := e
    cases p <;> simp [requests, ih]

theorem honours_zip (l : List State) (src : List Reply)
    (h : honours (l.map (fun s => wsub s.capacity s.used)) src = true) :
    ∀ x ∈ l.zip src, x.2.ret ≤ (wsub x.1.capacity x.1.used : Int) := by
  induction l generalizing src with
  | nil => intro x hx; simp at hx
  | cons s l ih =>
    cases src with
    | nil => intro x hx; simp at hx
    | cons r rest =>
      simp only [List.map_cons, honours, Bool.and_eq_true, decide_eq_true_eq] at h
      intro x hx
      simp only [List.zip_cons_cons, List.mem_cons] at hx
      rcases hx with rfl | hx
      · exact h.1
      · exact ih rest h.2 x hx

theorem stored_le_of_ret_le {r : Reply} {c : Nat} (h : r.ret ≤ (c : Int)) :
    r.stored.length ≤ c := by
  cases r with
  | data bs =>
    simp only [Reply.ret] at h
    simp only [Reply.stored]
    omega
  | eof => simp [Reply.stored]
  | err n => simp [Reply.stored]

/-- The shape of a state recorded inside the loop, in a run whose reads are honoured. -/
theorem Sound.loop_point {p : Point} {s : State} (h : Sound (p, s))
    (h1 : p ≠ Point.shrunk) (h2 : p ≠ Point.done) :
    ∃ content : List Byte, s.used = content.length ∧ s.used ≤ s.capacity ∧
      s.capacity + 1 < 2 ^ 64 ∧ (p ≠ Point.advanced → s.used < s.capacity) ∧
      s.buffer = some (content.map some ++ List.replicate (s.capacity + 1 - s.used) none) := by
  obtain ⟨cap, content, a, hle, _, _, hsz, hlt, heq⟩ := h
  cases p with
  | shrunk => exact absurd rfl h1
  | done => exact absurd rfl h2
  | init => simp only [headState] at heq; subst heq; exact ⟨content, rfl, hle, hsz, hlt, rfl⟩
  | read => simp only [headState] at heq; subst heq; exact ⟨content, rfl, hle, hsz, hlt, rfl⟩
  | advanced => simp only [headState] at heq; subst heq; exact ⟨content, rfl, hle, hsz, hlt, rfl⟩
  | grown => simp only [headState] at heq; subst heq; exact ⟨content, rfl, hle, hsz, hlt, rfl⟩

/-- The shape of the state recorded after the final `realloc`. -/
theorem Sound.shrunk_point {s : State} (h : Sound (Point.shrunk, s)) :
    ∃ content : List Byte, s.used = content.length ∧
      s.buffer = some (content.map some ++ [none]) := by
  obtain ⟨cap, content, a, _, _, _, _, _, heq⟩ := h
  simp only at heq
  subst heq
  exact ⟨content, rfl, rfl⟩

theorem Sound.read_point {s : State} (h : Sound (Point.read, s)) :
    s.used < s.capacity ∧ wsub s.capacity s.used = s.capacity - s.used ∧
      1 ≤ wsub s.capacity s.used := by
  obtain ⟨_, _, hle, hsz, hlt, _⟩ := h.loop_point (by decide) (by decide)
  have hlt := hlt (by decide)
  have hw := wsub_of_le hle (show s.capacity < 2 ^ 64 by omega)
  exact ⟨hlt, hw, by rw [hw]; omega⟩

/-- The number of reads of a run: one per positive answer, and one for the
first answer that is not positive. -/
theorem loop_read_count (src : List Reply) (cap : Nat) (content : List Byte) (a : Nat)
    (hfit : Fit cap content.length)
    (hhon : honours (requests (loop allocOk (headState cap content a) src).trace) src = true)
    (hlen : content.length + (delivered src).length < 2 ^ 63)
    (pre : List Reply) (r : Reply) (rest : List Reply) (hsrc : src = pre ++ r :: rest)
    (hpre : ∀ x ∈ pre, 0 < x.ret) (hr : r.ret ≤ 0) :
    (requests (loop allocOk (headState cap content a) src).trace).length = pre.length + 1 := by
  revert pre
  refine loop_induction
    (fun cap content a src => ∀ pre : List Reply, src = pre ++ r :: rest →
      (∀ x ∈ pre, 0 < x.ret) →
      (requests (loop allocOk (headState cap content a) src).trace).length = pre.length + 1)
    ?_ ?_ ?_ ?_ src cap content a hfit hhon hlen
  · intro cap content a _ _ pre hsrc _
    cases pre <;> simp at hsrc
  · intro cap content a r' rest' _ hlt hle heq pre hsrc hpre
    cases pre with
    | nil =>
      rw [heq]
      simp only [headState]
      rw [finish_clean cap content a _ (by omega)]
      rfl
    | cons p pre' =>
      simp only [List.cons_append, List.cons.injEq] at hsrc
      have := hpre p (List.mem_cons_self _ _)
      rw [← hsrc.1] at this
      omega
  · intro cap content a c rest' _ hc _ _ heq ih pre hsrc hpre
    cases pre with
    | nil =>
      simp only [List.nil_append, List.cons.injEq] at hsrc
      rw [← hsrc.1] at hr
      simp only [Reply.ret] at hr
      omega
    | cons p pre' =>
      simp only [List.cons_append, List.cons.injEq] at hsrc
      have h := ih pre' hsrc.2 (fun x hx => hpre x (List.mem_cons_of_mem _ hx))
      rw [heq, Run.after_trace, requests_append, List.length_append, h]
      simp [requests]
      omega
  · intro cap content a c rest' _ hc _ _ heq ih pre hsrc hpre
    cases pre with
    | nil =>
      simp only [List.nil_append, List.cons.injEq] at hsrc
      rw [← hsrc.1] at hr
      simp only [Reply.ret] at hr
      omega
    | cons p pre' =>
      simp only [List.cons_append, List.cons.injEq] at hsrc
      have h := ih pre' hsrc.2 (fun x hx => hpre x (List.mem_cons_of_mem _ hx))
      rw [heq, Run.after_trace, requests_append, List.length_append, h]
      simp [requests]
      omega

/-! ## Scanning for the terminator -/

theorem firstZero_data (d : List Byte) :
    firstZero (d.map some ++ [some 0]) = d.findIdx (fun b => decide (b = 0)) := by
  unfold firstZero
  induction d with
  | nil => simp [List.findIdx_cons]
  | cons b d ih =>
    simp only [List.map_cons, List.cons_append, List.findIdx_cons, ih]
    by_cases hb : b = 0 <;> simp [hb]

/-! ## Checking that a source honours the requests, read by read -/

theorem requests_finish (alloc : Nat → Bool) (s : State) :
    requests (finish alloc s).trace = [] := by
  unfold finish
  dsimp only
  split
  · rfl
  · split_ifs <;> rfl

theorem honours_stop (alloc : Nat → Bool) (s : State) (r : Reply) (rest : List Reply)
    (hr : r.ret ≤ 0) :
    honours (requests (loop alloc s (r :: rest)).trace) (r :: rest) = true := by
  rw [loop_stop alloc s r rest hr, Run.after_trace, requests_append, requests_finish]
  have h : r.ret ≤ (wsub s.capacity s.used : Int) := by omega
  simp [requests, honours, h]

theorem honours_keep (cap : Nat) (content c : List Byte) (a : Nat) (rest : List Reply)
    (h1 : 1 ≤ c.length) (h2 : content.length + c.length < cap)
    (hcap : cap + 1 < 2 ^ 64) (hlen : content.length + c.length < 2 ^ 63)
    (hrest : honours (requests (loop allocOk (headState cap (content ++ c) a) rest).trace) rest
      = true) :
    honours (requests (loop allocOk (headState cap content a) (Reply.data c :: rest)).trace)
      (Reply.data c :: rest) = true := by
  rw [loop_data cap content c a rest h1 (le_of_lt h2) hcap hlen, if_neg (by omega)]
  have hw : wsub cap content.length = cap - content.length :=
    wsub_of_le (by omega) (by omega)
  simp only [Run.after_trace, List.cons_append, List.nil_append, requests, honours,
    Bool.and_eq_true, decide_eq_true_eq, headState, Reply.ret, hw]
  exact ⟨by omega, hrest⟩

theorem honours_grow (cap : Nat) (content c : List Byte) (a : Nat) (rest : List Reply)
    (h1 : 1 ≤ c.length) (h2 : content.length + c.length = cap)
    (hcap : cap + 1 < 2 ^ 64) (hlen : content.length + c.length < 2 ^ 63)
    (hrest : honours
      (requests (loop allocOk (headState (2 * cap) (content ++ c) (a + 1)) rest).trace) rest
      = true) :
    honours (requests (loop allocOk (headState cap content a) (Reply.data c :: rest)).trace)
      (Reply.data c :: rest) = true := by
  rw [loop_data cap content c a rest h1 (le_of_eq h2) hcap hlen, if_pos h2]
  have hw : wsub cap content.length = cap - content.length :=
    wsub_of_le (by omega) (by omega)
  simp only [Run.after_trace, List.cons_append, List.nil_append, requests, honours,
    Bool.and_eq_true, decide_eq_true_eq, headState, Reply.ret, hw]
  exact ⟨by omega, hrest⟩

theorem honours_run {src : List Reply}
    (h : honours (requests (loop allocOk (headState 4096 [] 1) src).trace) src = true) :
    honours (requests (read_until_eof allocOk src).trace) src = true := by
  rw [read_until_eof_eq, Run.after_trace]
  simpa [requests_init] using h

/-! ## The claims -/

/-- Claim C1: when a source delivers the bytes `d` as chunks of at least one
byte, each no longer than the count requested of its read, and then answers
`0`, the returned buffer holds `d` in its first `d.length` cells, in order,
and `0` at index `d.length`. Stated for `d.length < 2 ^ 63`, where the
`size_t` computations do not wrap. -/
theorem read_until_eof_contents (d : List Byte) (chunks : List (List Byte))
    (hd : chunks.flatten = d)
    (hpos : ∀ c ∈ chunks, 1 ≤ c.length)
    (hcount : honours
      (requests (read_until_eof allocOk (chunks.map Reply.data ++ [Reply.eof])).trace)
      (chunks.map Reply.data ++ [Reply.eof]) = true)
    (hsize : d.length < 2 ^ 63) :
    ∃ buf, (read_until_eof allocOk (chunks.map Reply.data ++ [Reply.eof])).result
        = Result.returned buf ∧
      buf.take d.length = d.map some ∧ buf[d.length]? = some (some 0) := by
  have hdel := delivered_chunks chunks Reply.eof [] hpos (le_refl _)
  rw [hd] at hdel
  have hres := run_result _ hcount (by rw [hdel]; exact hsize)
    (stops_chunks _ Reply.eof [] (le_refl _))
  rw [hdel] at hres
  refine ⟨_, hres, ?_, ?_⟩
  · rw [List.take_left']
    simp
  · rw [List.getElem?_append_right (by simp)]
    simp

/-- Witness of C1: three bytes delivered as a chunk of two and a chunk of one. -/
theorem read_until_eof_contents_witness :
    ∃ buf, (read_until_eof allocOk
        ([[1, 2], [3]].map Reply.data ++ [Reply.eof])).result = Result.returned buf ∧
      buf.take 3 = [some 1, some 2, some 3] ∧ buf[3]? = some (some 0) :=
  read_until_eof_contents [1, 2, 3] [[1, 2], [3]] rfl (by decide) (by decide!) (by decide)

/-- Claim C2: two sources that deliver the same bytes `d` and then answer `0`,
cut into chunks in two different ways, make `read_until_eof` return the same
buffer: same cells, same size `d.length + 1`, terminator at index `d.length`. -/
theorem read_until_eof_chunking (d : List Byte) (chunks₁ chunks₂ : List (List Byte))
    (hd₁ : chunks₁.flatten = d) (hd₂ : chunks₂.flatten = d)
    (hpos₁ : ∀ c ∈ chunks₁, 1 ≤ c.length) (hpos₂ : ∀ c ∈ chunks₂, 1 ≤ c.length)
    (hcount₁ : honours
      (requests (read_until_eof allocOk (chunks₁.map Reply.data ++ [Reply.eof])).trace)
      (chunks₁.map Reply.data ++ [Reply.eof]) = true)
    (hcount₂ : honours
      (requests (read_until_eof allocOk (chunks₂.map Reply.data ++ [Reply.eof])).trace)
      (chunks₂.map Reply.data ++ [Reply.eof]) = true)
    (hsize : d.length < 2 ^ 63) :
    ∃ buf, (read_until_eof allocOk (chunks₁.map Reply.data ++ [Reply.eof])).result
        = Result.returned buf ∧
      (read_until_eof allocOk (chunks₂.map Reply.data ++ [Reply.eof])).result
        = Result.returned buf ∧
      buf.length = d.length + 1 ∧ buf[d.length]? = some (some 0) := by
  have hdel₁ := delivered_chunks chunks₁ Reply.eof [] hpos₁ (le_refl _)
  have hdel₂ := delivered_chunks chunks₂ Reply.eof [] hpos₂ (le_refl _)
  rw [hd₁] at hdel₁
  rw [hd₂] at hdel₂
  have hres₁ := run_result _ hcount₁ (by rw [hdel₁]; exact hsize)
    (stops_chunks _ Reply.eof [] (le_refl _))
  have hres₂ := run_result _ hcount₂ (by rw [hdel₂]; exact hsize)
    (stops_chunks _ Reply.eof [] (le_refl _))
  rw [hdel₁] at hres₁
  rw [hdel₂] at hres₂
  refine ⟨_, hres₁, hres₂, by simp, ?_⟩
  rw [List.getElem?_append_right (by simp)]
  simp

/-- Witness of C2: four bytes delivered one byte per read, and in a single read. -/
theorem read_until_eof_chunking_witness :
    ∃ buf, (read_until_eof allocOk
        ([[9], [8], [7], [6]].map Reply.data ++ [Reply.eof])).result = Result.returned buf ∧
      (read_until_eof allocOk ([[9, 8, 7, 6]].map Reply.data ++ [Reply.eof])).result
        = Result.returned buf ∧
      buf.length = 4 + 1 ∧ buf[4]? = some (some 0) :=
  read_until_eof_chunking [9, 8, 7, 6] [[9], [8], [7], [6]] [[9, 8, 7, 6]] rfl rfl
    (by decide) (by decide) (by decide!) (by decide!) (by decide)

/-- Counterexample to C3: a source whose first read returns `-1` gets the very
outcome of an immediate end of stream, the one-byte buffer holding `0`. -/
theorem read_error_first_is_empty_success :
    (read_until_eof allocOk [Reply.err 0]).result = Result.returned [some 0] ∧
    (read_until_eof allocOk [Reply.err 0]).result
      = (read_until_eof allocOk [Reply.eof]).result := by
  constructor <;> decide!

/-- Claim C3, amended: for a source whose first read returns a negative
result, `read_until_eof` runs exactly as for an immediate end of stream and
returns the same buffer, of one byte, holding `0`; no failure is reported. -/
theorem read_error_first (n : Nat) (rest : List Reply) :
    read_until_eof allocOk (Reply.err n :: rest) = read_until_eof allocOk [Reply.eof] ∧
    (read_until_eof allocOk (Reply.err n :: rest)).result = Result.returned [some 0] := by
  have hle : (Reply.err n).ret ≤ 0 := err_ret_nonpos n
  have h0 : (Reply.eof).ret ≤ 0 := le_refl _
  constructor
  · rw [read_until_eof_eq, read_until_eof_eq, loop_stop _ _ _ _ hle, loop_stop _ _ _ _ h0]
  · rw [read_until_eof_eq, Run.after_result, loop_stop _ _ _ _ hle, Run.after_result]
    simp only [headState]
    rw [finish_clean 4096 [] 1 _ (by norm_num)]
    rfl

/-- Claim C4: whatever the answers of the source (each at most the count
requested, fewer than `2 ^ 63` bytes in all), when the call returns, the
allocation returned has exactly `used + 1` cells, `used` being the number of
bytes read, and holds `0` at index `used`; for 100000 bytes it has 100001
cells, not the 131073 of the last growth. -/
theorem read_until_eof_tight (src : List Reply) (buf : List Cell)
    (hcount : honours (requests (read_until_eof allocOk src).trace) src = true)
    (hsize : (delivered src).length < 2 ^ 63)
    (hret : (read_until_eof allocOk src).result = Result.returned buf) :
    ∃ s, (read_until_eof allocOk src).trace.getLast? = some (Point.done, s) ∧
      s.buffer = some buf ∧ s.used = (delivered src).length ∧
      buf.length = s.used + 1 ∧ buf[s.used]? = some (some 0) ∧
      ((delivered src).length = 100000 → buf.length = 100001) := by
  have hstop : stops src = true := by
    by_contra hne
    rw [run_blocked src hcount hsize (by simpa using hne)] at hret
    cases hret
  obtain ⟨s, h1, h2, h3, _⟩ := run_final src hcount hsize hstop
  have hres := run_result src hcount hsize hstop
  rw [hres] at hret
  injection hret with hbuf
  subst hbuf
  refine ⟨s, h1, h3, h2, by simp [h2], ?_, ?_⟩
  · rw [h2, List.getElem?_append_right (by simp)]
    simp
  · intro h
    simp [h]

/-- Witness of C4: five bytes read in two chunks, then an error. -/
theorem read_until_eof_tight_witness :
    ∃ s, (read_until_eof allocOk
        [Reply.data [1, 0, 2], Reply.data [3, 4], Reply.err 4]).trace.getLast?
        = some (Point.done, s) ∧
      s.buffer = some [some 1, some 0, some 2, some 3, some 4, some 0] ∧
      s.used = (delivered [Reply.data [1, 0, 2], Reply.data [3, 4], Reply.err 4]).length ∧
      [some (1 : Byte), some 0, some 2, some 3, some 4, some 0].length = s.used + 1 ∧
      [some (1 : Byte), some 0, some 2, some 3, some 4, some 0][s.used]? = some (some 0) ∧
      ((delivered [Reply.data [1, 0, 2], Reply.data [3, 4], Reply.err 4]).length = 100000 →
        [some (1 : Byte), some 0, some 2, some 3, some 4, some 0].length = 100001) :=
  read_until_eof_tight [Reply.data [1, 0, 2], Reply.data [3, 4], Reply.err 4]
    [some 1, some 0, some 2, some 3, some 4, some 0] (by decide!) (by decide) (by decide!)

/-- Claim C5: when the source delivers exactly 4096 bytes `d`, in any chunks,
and then answers `0`, the read that brings `used` to 4096 is followed by the
growth to capacity 8192, after which the buffer still holds `d` in its first
4096 cells; the next read is issued at offset 4096; and the call returns `d`
followed by `0` in 4097 cells. -/
theorem read_until_eof_boundary (d : List Byte) (chunks : List (List Byte))
    (hd : chunks.flatten = d) (hlen : d.length = 4096)
    (hpos : ∀ c ∈ chunks, 1 ≤ c.length)
    (hcount : honours
      (requests (read_until_eof allocOk (chunks.map Reply.data ++ [Reply.eof])).trace)
      (chunks.map Reply.data ++ [Reply.eof]) = true) :
    (read_until_eof allocOk (chunks.map Reply.data ++ [Reply.eof])).result
      = Result.returned (d.map some ++ [some 0]) ∧
    (d.map some ++ [(some 0 : Cell)]).length = 4097 ∧
    growths (read_until_eof allocOk (chunks.map Reply.data ++ [Reply.eof])).trace = [8192] ∧
    ∃ pre full grown s₁ s₂,
      (read_until_eof allocOk (chunks.map Reply.data ++ [Reply.eof])).trace
        = pre ++ [(Point.advanced, full), (Point.grown, grown), (Point.read, grown),
                  (Point.shrunk, s₁), (Point.done, s₂)] ∧
      full.used = 4096 ∧ full.capacity = 4096 ∧
      grown.used = 4096 ∧ grown.capacity = 8192 ∧
      grown.buffer = some (d.map some ++ List.replicate 4097 none) ∧
      s₂.buffer = some (d.map some ++ [some 0]) := by
  have h0 : (Reply.eof).ret ≤ 0 := le_refl _
  have hdel := delivered_chunks chunks Reply.eof [] hpos h0
  rw [hd] at hdel
  have hsize : (delivered (chunks.map Reply.data ++ [Reply.eof])).length < 2 ^ 63 := by
    rw [hdel, hlen]; norm_num
  have hstop := stops_chunks (chunks.map Reply.data) Reply.eof [] h0
  have hres := run_result _ hcount hsize hstop
  rw [hdel] at hres
  have hloop := honours_of_run hcount
  obtain ⟨s, n, hlast, hcapn, hgrow⟩ :=
    loop_growths _ 4096 [] 1 Fit.init hloop (by simpa using hsize) hstop
  obtain ⟨s', hlast', hused, _, hfit⟩ :=
    loop_final _ 4096 [] 1 Fit.init hloop (by simpa using hsize) hstop
  rw [hlast] at hlast'
  obtain rfl : s = s' := by
    simpa using hlast'
  have hn : n = 1 := by
    rw [hdel] at hused
    simp only [List.nil_append] at hused
    rw [hused, hlen, hcapn] at hfit
    obtain ⟨h1, h2, _⟩ := hfit
    simp only [le_max_iff] at h2
    have hlo : 0 < n := by
      by_contra hn0
      have : n = 0 := by omega
      subst this
      simp at h1
    have hhi : n < 2 := by
      by_contra hn2
      have : 2 ^ 2 ≤ 2 ^ n := Nat.pow_le_pow_right (by norm_num) (by omega)
      omega
    omega
  obtain ⟨pre, a', htrace⟩ := loop_boundary _ 4096 [] 1 Fit.init hloop
    (by simpa using hsize) rfl hstop (by simpa [hdel] using hlen)
  rw [hdel] at htrace
  simp only [List.nil_append] at htrace
  refine ⟨hres, by simp [hlen], ?_, ?_⟩
  · rw [read_until_eof_eq, Run.after_trace, growths_append, hgrow, hn]
    rfl
  · refine ⟨(Point.init, headState 4096 [] 1) :: pre, headState 4096 d a',
      headState 8192 d (a' + 1),
      { capacity := 8192, used := d.length, buffer := some (d.map some ++ [none]),
        allocs := a' + 1 + 1 },
      { capacity := 8192, used := d.length, buffer := some (d.map some ++ [some 0]),
        allocs := a' + 1 + 1 }, ?_, hlen, rfl, hlen, rfl, ?_, rfl⟩
    · rw [read_until_eof_eq, Run.after_trace, htrace]
      rfl
    · simp only [headState, hlen]

/-- Witness of C5: 4096 bytes delivered by a single read of 4096 bytes. -/
theorem read_until_eof_boundary_witness :
    (read_until_eof allocOk
        ([List.replicate 4096 (7 : Byte)].map Reply.data ++ [Reply.eof])).result
      = Result.returned ((List.replicate 4096 (7 : Byte)).map some ++ [some 0]) ∧
    growths (read_until_eof allocOk
        ([List.replicate 4096 (7 : Byte)].map Reply.data ++ [Reply.eof])).trace = [8192] :=
  have h := read_until_eof_boundary (List.replicate 4096 7) [List.replicate 4096 7]
    (by decide!) (by decide!) (by decide!) (by decide!)
  ⟨h.1, h.2.2.1⟩

/-- Claim C6: when the first read returns `0`, the call issues that one read,
never grows the buffer, and returns an allocation of one byte holding `0`. -/
theorem read_until_eof_empty (rest : List Reply) :
    (read_until_eof allocOk (Reply.eof :: rest)).result = Result.returned [some 0] ∧
    (read_until_eof allocOk (Reply.eof :: rest)).trace.map Prod.fst
      = [Point.init, Point.read, Point.shrunk, Point.done] ∧
    (requests (read_until_eof allocOk (Reply.eof :: rest)).trace).length = 1 ∧
    growths (read_until_eof allocOk (Reply.eof :: rest)).trace = [] := by
  have h0 : (Reply.eof).ret ≤ 0 := le_refl _
  rw [read_until_eof_eq, loop_stop _ _ _ _ h0]
  simp only [headState]
  rw [finish_clean 4096 [] 1 _ (by norm_num)]
  refine ⟨rfl, rfl, rfl, rfl⟩

/-- Claim C7: after the same chunks, a read that returns a negative value
ends the call exactly as a read that returns `0` does: same run, same
returned buffer, holding the bytes `p` read so far, `0` at index `p.length`,
in `p.length + 1` cells. -/
theorem read_error_as_eof (p : List Byte) (chunks : List (List Byte)) (n : Nat)
    (hp : chunks.flatten = p)
    (hpos : ∀ c ∈ chunks, 1 ≤ c.length)
    (hcount : honours
      (requests (read_until_eof allocOk (chunks.map Reply.data ++ [Reply.err n])).trace)
      (chunks.map Reply.data ++ [Reply.err n]) = true)
    (hsize : p.length < 2 ^ 63) :
    read_until_eof allocOk (chunks.map Reply.data ++ [Reply.err n])
      = read_until_eof allocOk (chunks.map Reply.data ++ [Reply.eof]) ∧
    (read_until_eof allocOk (chunks.map Reply.data ++ [Reply.err n])).result
      = Result.returned (p.map some ++ [some 0]) ∧
    (read_until_eof allocOk (chunks.map Reply.data ++ [Reply.eof])).result
      = Result.returned (p.map some ++ [some 0]) := by
  have hle : (Reply.err n).ret ≤ 0 := err_ret_nonpos n
  have h0 : (Reply.eof).ret ≤ 0 := le_refl _
  have hrun : read_until_eof allocOk (chunks.map Reply.data ++ [Reply.err n])
      = read_until_eof allocOk (chunks.map Reply.data ++ [Reply.eof]) := by
    rw [read_until_eof_eq, read_until_eof_eq,
      loop_stop_congr allocOk (chunks.map Reply.data) (Reply.err n) Reply.eof [] [] hle h0]
  have hdel := delivered_chunks chunks (Reply.err n) [] hpos hle
  rw [hp] at hdel
  have hres := run_result _ hcount (by rw [hdel]; exact hsize)
    (stops_chunks _ (Reply.err n) [] hle)
  rw [hdel] at hres
  exact ⟨hrun, hres, hrun ▸ hres⟩

/-- Witness of C7: two chunks, then a read returning `-1`. -/
theorem read_error_as_eof_witness :
    read_until_eof allocOk ([[5, 6], [7]].map Reply.data ++ [Reply.err 0])
      = read_until_eof allocOk ([[5, 6], [7]].map Reply.data ++ [Reply.eof]) ∧
    (read_until_eof allocOk ([[5, 6], [7]].map Reply.data ++ [Reply.err 0])).result
      = Result.returned (([5, 6, 7] : List Byte).map some ++ [some 0]) ∧
    (read_until_eof allocOk ([[5, 6], [7]].map Reply.data ++ [Reply.eof])).result
      = Result.returned (([5, 6, 7] : List Byte).map some ++ [some 0]) :=
  read_error_as_eof [5, 6, 7] [[5, 6], [7]] 0 rfl (by decide) (by decide!) (by decide)

/-- Claim C8: in a run whose reads return at most the count requested (and
fewer than `2 ^ 63` bytes in all), `used ≤ capacity` holds in every recorded
state: after the initialisation, at each read, after each `used += bytes_read`,
after each growth and after the loop. -/
theorem used_le_capacity (src : List Reply)
    (hcount : honours (requests (read_until_eof allocOk src).trace) src = true)
    (hsize : (delivered src).length < 2 ^ 63) :
    ∀ e ∈ (read_until_eof allocOk src).trace, e.2.used ≤ e.2.capacity :=
  fun e he => (run_sound src hcount hsize e he).used_le

/-- Witness of C8: a run of two reads and an end of stream. -/
theorem used_le_capacity_witness :
    honours (requests
        (read_until_eof allocOk [Reply.data [1, 2], Reply.data [3], Reply.eof]).trace)
      [Reply.data [1, 2], Reply.data [3], Reply.eof] = true ∧
    ∀ e ∈ (read_until_eof allocOk [Reply.data [1, 2], Reply.data [3], Reply.eof]).trace,
      e.2.used ≤ e.2.capacity :=
  ⟨by decide!,
    used_le_capacity [Reply.data [1, 2], Reply.data [3], Reply.eof] (by decide!) (by decide)⟩

/-- Counterexample to C9: with an initial `malloc` that fails, the first read is
still issued, on the null buffer, and at an immediate end of stream the call
returns the one-byte buffer of a run without failure; a read that delivers a
byte stores it through the null pointer; with a growth that fails the call
returns 4097 cells of which the first 4096 were never written; with a final
`realloc` that fails the terminator is stored through the null pointer. No
run reports the failure. -/
theorem alloc_failure_unreported :
    (read_until_eof (allocFailAt 0) [Reply.eof]).trace.map (fun e => (e.1, e.2.buffer.isSome))
      = [(Point.init, false), (Point.read, false), (Point.shrunk, true), (Point.done, true)] ∧
    (read_until_eof (allocFailAt 0) [Reply.eof]).result = Result.returned [some 0] ∧
    (read_until_eof (allocFailAt 0) [Reply.eof]).result
      = (read_until_eof allocOk [Reply.eof]).result ∧
    (read_until_eof (allocFailAt 0) [Reply.data [1], Reply.eof]).result = Result.fault ∧
    (read_until_eof (allocFailAt 1)
        [Reply.data (List.replicate 4096 7), Reply.err 13]).result
      = Result.returned (List.replicate 4096 none ++ [some 0]) ∧
    (read_until_eof (allocFailAt 1) [Reply.eof]).result = Result.fault := by
  refine ⟨?_, ?_, ?_, ?_, ?_, ?_⟩ <;> decide!

/-- Claim C9, amended: allocation results are never tested and no outcome
reports an allocation failure. Whatever the allocator answers, the first read
is issued on the pointer `malloc` returned, null if it failed; a call that
returns hands back a non-null allocation of exactly `used + 1` cells with `0`
at index `used`; and when the final `realloc` returns null the terminator
store faults. -/
theorem alloc_unchecked (alloc : Nat → Bool) (src : List Reply) :
    (∃ s₀ t, (read_until_eof alloc src).trace = (Point.init, s₀) :: (Point.read, s₀) :: t ∧
      (alloc 0 = false → s₀.buffer = none)) ∧
    (∀ buf, (read_until_eof alloc src).result = Result.returned buf →
      ∃ s, (read_until_eof alloc src).trace.getLast? = some (Point.done, s) ∧
        s.buffer = some buf ∧ buf.length = s.used + 1 ∧ buf[s.used]? = some (some 0)) ∧
    (∀ s, (Point.shrunk, s) ∈ (read_until_eof alloc src).trace → s.buffer = none →
      (read_until_eof alloc src).result = Result.fault) := by
  refine ⟨?_, ?_, ?_⟩
  · obtain ⟨t, ht⟩ := loop_trace_head alloc
      { capacity := 4096, used := 0, buffer := malloc (alloc 0) (wrap (4096 + 1)), allocs := 1 }
      src
    refine ⟨{ capacity := 4096, used := 0, buffer := malloc (alloc 0) (wrap (4096 + 1)),
              allocs := 1 }, t, ?_, ?_⟩
    · simp only [read_until_eof, Run.after_trace, ht]
      rfl
    · intro h
      simp [malloc, h]
  · intro buf h
    simp only [read_until_eof, Run.after_result] at h
    obtain ⟨s, h1, h2⟩ := loop_returned alloc src _ buf h
    refine ⟨s, ?_, h2⟩
    simp only [read_until_eof, Run.after_trace]
    exact getLast?_append_some _ _ _ h1
  · intro s hmem hnull
    simp only [read_until_eof, Run.after_trace, Run.after_result, List.mem_append,
      List.mem_singleton, Prod.mk.injEq, reduceCtorEq, false_and, false_or] at hmem ⊢
    exact loop_null alloc src _ s hmem hnull

/-- Claim C10: in a run whose reads return at most the count requested (and
fewer than `2 ^ 63` bytes in all), the capacity starts at 4096; between
consecutive recorded states it changes only at a growth, which doubles it
right after a read that made `used` equal to `capacity`; it is `4096 * 2 ^ k`
in every state; when the source stops, the capacity at exit is the least
`4096 * 2 ^ k` above `used`, so at most `max 4096 (2 * used)`; and after
100000 bytes the growths were to 8192, 16384, 32768, 65536 and 131072, five
doublings, whatever the chunks. -/
theorem capacity_geometric (src : List Reply)
    (hcount : honours (requests (read_until_eof allocOk src).trace) src = true)
    (hsize : (delivered src).length < 2 ^ 63) :
    (∃ s₀ t, (read_until_eof allocOk src).trace = (Point.init, s₀) :: t ∧
      s₀.capacity = 4096) ∧
    List.Chain' CapacityStep (read_until_eof allocOk src).trace ∧
    (∀ e ∈ (read_until_eof allocOk src).trace, ∃ k, e.2.capacity = 4096 * 2 ^ k) ∧
    (stops src = true →
      ∃ s, (read_until_eof allocOk src).trace.getLast? = some (Point.done, s) ∧
        s.used = (delivered src).length ∧ s.used < s.capacity ∧
        (∃ k, s.capacity = 4096 * 2 ^ k) ∧
        (∀ j, s.used < 4096 * 2 ^ j → s.capacity ≤ 4096 * 2 ^ j) ∧
        s.capacity ≤ max 4096 (2 * s.used) ∧
        ((delivered src).length = 100000 →
          growths (read_until_eof allocOk src).trace = [8192, 16384, 32768, 65536, 131072] ∧
          (growths (read_until_eof allocOk src).trace).length = 5 ∧
          s.capacity = 131072)) := by
  have hloop := honours_of_run hcount
  have hsize' : ([] : List Byte).length + (delivered src).length < 2 ^ 63 := by
    simpa using hsize
  refine ⟨⟨_, _, by rw [read_until_eof_eq]; rfl, rfl⟩, ?_,
    fun e he => (run_sound src hcount hsize e he).capacity_pow, ?_⟩
  · rw [read_until_eof_eq, Run.after_trace]
    exact chain_read _ _ _ _ rfl (loop_chain src 4096 [] 1 Fit.init hloop hsize')
  · intro hstop
    obtain ⟨s, h1, h2, _, h4⟩ := run_final src hcount hsize hstop
    obtain ⟨s', n, hlast, hcapn, hgrow⟩ := loop_growths src 4096 [] 1 Fit.init hloop hsize' hstop
    have hs : s' = s := by
      have h := getLast?_append_some [(Point.init, headState 4096 [] 1)] _ _ hlast
      rw [← Run.after_trace, ← read_until_eof_eq, h1] at h
      simpa using h.symm
    subst hs
    refine ⟨s', h1, h2, h4.1, h4.2.2, fun j hj => h4.least j hj, h4.2.1, ?_⟩
    intro hL
    have hn : n = 5 := by
      rw [h2, hL, hcapn] at h4
      exact exponent_100000 n h4
    subst hn
    have hg : growths (read_until_eof allocOk src).trace
        = [8192, 16384, 32768, 65536, 131072] := by
      rw [read_until_eof_eq, Run.after_trace, growths_append, hgrow]
      rfl
    exact ⟨hg, by rw [hg]; rfl, by rw [hcapn]; norm_num⟩

/-- Witness of C10: 100000 bytes delivered by reads of 4096, 4096, 8192,
16384, 32768 and 34464 bytes, each read but the last filling the buffer, then
an end of stream: the capacity is doubled five times, to 8192, 16384, 32768,
65536 and 131072, which is the capacity at exit. -/
theorem capacity_geometric_witness :
    growths (read_until_eof allocOk
        [Reply.data (List.replicate 4096 1), Reply.data (List.replicate 4096 2),
         Reply.data (List.replicate 8192 3), Reply.data (List.replicate 16384 4),
         Reply.data (List.replicate 32768 5), Reply.data (List.replicate 34464 6),
         Reply.eof]).trace = [8192, 16384, 32768, 65536, 131072] ∧
    List.Chain' CapacityStep (read_until_eof allocOk
        [Reply.data (List.replicate 4096 1), Reply.data (List.replicate 4096 2),
         Reply.data (List.replicate 8192 3), Reply.data (List.replicate 16384 4),
         Reply.data (List.replicate 32768 5), Reply.data (List.replicate 34464 6),
         Reply.eof]).trace ∧
    ∃ s, (read_until_eof allocOk
        [Reply.data (List.replicate 4096 1), Reply.data (List.replicate 4096 2),
         Reply.data (List.replicate 8192 3), Reply.data (List.replicate 16384 4),
         Reply.data (List.replicate 32768 5), Reply.data (List.replicate 34464 6),
         Reply.eof]).trace.getLast? = some (Point.done, s) ∧
      s.used = 100000 ∧ s.capacity = 131072 := by
  have hcount : honours (requests (read_until_eof allocOk
        [Reply.data (List.replicate 4096 1), Reply.data (List.replicate 4096 2),
         Reply.data (List.replicate 8192 3), Reply.data (List.replicate 16384 4),
         Reply.data (List.replicate 32768 5), Reply.data (List.replicate 34464 6),
         Reply.eof]).trace)
        [Reply.data (List.replicate 4096 1), Reply.data (List.replicate 4096 2),
         Reply.data (List.replicate 8192 3), Reply.data (List.replicate 16384 4),
         Reply.data (List.replicate 32768 5), Reply.data (List.replicate 34464 6),
         Reply.eof] = true := by
    refine honours_run (honours_grow _ _ _ _ _ ?_ ?_ ?_ ?_ (honours_grow _ _ _ _ _ ?_ ?_ ?_ ?_
      (honours_grow _ _ _ _ _ ?_ ?_ ?_ ?_ (honours_grow _ _ _ _ _ ?_ ?_ ?_ ?_
      (honours_grow _ _ _ _ _ ?_ ?_ ?_ ?_ (honours_keep _ _ _ _ _ ?_ ?_ ?_ ?_
      (honours_stop _ _ Reply.eof [] (le_refl _)))))))) <;>
    first
      | omega
      | (simp only [List.length_append, List.length_replicate, List.length_nil] <;> omega)
  have hlen : (delivered
        [Reply.data (List.replicate 4096 1), Reply.data (List.replicate 4096 2),
         Reply.data (List.replicate 8192 3), Reply.data (List.replicate 16384 4),
         Reply.data (List.replicate 32768 5), Reply.data (List.replicate 34464 6),
         Reply.eof]).length = 100000 := by
    rw [delivered_data (List.replicate 4096 1) _ (by rw [List.length_replicate]; omega),
      delivered_data (List.replicate 4096 2) _ (by rw [List.length_replicate]; omega),
      delivered_data (List.replicate 8192 3) _ (by rw [List.length_replicate]; omega),
      delivered_data (List.replicate 16384 4) _ (by rw [List.length_replicate]; omega),
      delivered_data (List.replicate 32768 5) _ (by rw [List.length_replicate]; omega),
      delivered_data (List.replicate 34464 6) _ (by rw [List.length_replicate]; omega),
      delivered_stop Reply.eof [] (le_refl _),
      List.length_append, List.length_append, List.length_append, List.length_append,
      List.length_append, List.length_append, List.length_replicate, List.length_replicate,
      List.length_replicate, List.length_replicate, List.length_replicate,
      List.length_replicate, List.length_nil]
  have hstop : stops
        [Reply.data (List.replicate 4096 1), Reply.data (List.replicate 4096 2),
         Reply.data (List.replicate 8192 3), Reply.data (List.replicate 16384 4),
         Reply.data (List.replicate 32768 5), Reply.data (List.replicate 34464 6),
         Reply.eof] = true := by
    simp only [stops, List.any_cons, Reply.ret, le_refl, decide_True, Bool.or_true,
      Bool.true_or]
  have h := capacity_geometric _ hcount (by rw [hlen]; omega)
  obtain ⟨s, hlast, hused, _, _, _, _, hL⟩ := h.2.2.2 hstop
  exact ⟨(hL hlen).1, h.2.1, s, hlast, hused.trans hlen, (hL hlen).2.2⟩

/-- Claim C11: in a run whose reads return at most the count requested (and
fewer than `2 ^ 63` bytes in all), `used < capacity` holds each time a read is
issued, so every read asks for `capacity - used ≥ 1` bytes, never for none;
and the call returns only after an answer of the source that is not positive,
with every byte delivered before that answer in the buffer. -/
theorem read_request_positive (src : List Reply)
    (hcount : honours (requests (read_until_eof allocOk src).trace) src = true)
    (hsize : (delivered src).length < 2 ^ 63) :
    (∀ s, (Point.read, s) ∈ (read_until_eof allocOk src).trace →
      s.used < s.capacity ∧ wsub s.capacity s.used = s.capacity - s.used ∧
        1 ≤ wsub s.capacity s.used) ∧
    (∀ c ∈ requests (read_until_eof allocOk src).trace, 1 ≤ c) ∧
    (∀ buf, (read_until_eof allocOk src).result = Result.returned buf →
      stops src = true ∧ buf = (delivered src).map some ++ [some 0]) := by
  have hread : ∀ s, (Point.read, s) ∈ (read_until_eof allocOk src).trace →
      s.used < s.capacity ∧ wsub s.capacity s.used = s.capacity - s.used ∧
        1 ≤ wsub s.capacity s.used :=
    fun s hs => (run_sound src hcount hsize _ hs).read_point
  refine ⟨hread, ?_, ?_⟩
  · intro c hc
    rw [requests_eq_reads, List.mem_map] at hc
    obtain ⟨s, hs, rfl⟩ := hc
    exact (hread s ((mem_reads _ s).mp hs)).2.2
  · intro buf hret
    have hstop : stops src = true := by
      by_contra hne
      rw [run_blocked src hcount hsize (by simpa using hne)] at hret
      cases hret
    rw [run_result src hcount hsize hstop] at hret
    injection hret with hbuf
    exact ⟨hstop, hbuf.symm⟩

/-- Witness of C11: a run of two reads and an end of stream. -/
theorem read_request_positive_witness :
    requests (read_until_eof allocOk [Reply.data [1, 2], Reply.data [3], Reply.eof]).trace
      = [4096, 4094, 4093] ∧
    ∀ c ∈ requests
        (read_until_eof allocOk [Reply.data [1, 2], Reply.data [3], Reply.eof]).trace, 1 ≤ c :=
  ⟨by decide!,
    (read_request_positive [Reply.data [1, 2], Reply.data [3], Reply.eof]
      (by decide!) (by decide)).2.1⟩

/-- Claim C12: in a run whose reads return at most the count requested (and
fewer than `2 ^ 63` bytes in all), every state recorded up to the end of the
loop has an allocation of exactly `capacity + 1` cells whose cell at index
`capacity` was never written; the bytes stored by a read issued in state `s`
go to the indices from `s.used` up to, not including, `s.capacity`; after the
final `realloc` the allocation has `used + 1` cells, so the terminator store
at index `used` is inside it; and the run does not end in a faulting store. -/
theorem bounds_safety (src : List Reply)
    (hcount : honours (requests (read_until_eof allocOk src).trace) src = true)
    (hsize : (delivered src).length < 2 ^ 63) :
    (∀ p s, (p, s) ∈ (read_until_eof allocOk src).trace → p ≠ Point.shrunk → p ≠ Point.done →
      ∃ cells, s.buffer = some cells ∧ cells.length = s.capacity + 1 ∧
        cells[s.capacity]? = some none) ∧
    (∀ s r, (s, r) ∈ (reads (read_until_eof allocOk src).trace).zip src →
      wsub s.capacity s.used = s.capacity - s.used ∧
      r.stored.length ≤ wsub s.capacity s.used ∧
      s.used + r.stored.length ≤ s.capacity) ∧
    (∀ s, (Point.shrunk, s) ∈ (read_until_eof allocOk src).trace →
      ∃ cells, s.buffer = some cells ∧ cells.length = s.used + 1) ∧
    (read_until_eof allocOk src).result ≠ Result.fault := by
  have hsound := run_sound src hcount hsize
  refine ⟨?_, ?_, ?_, ?_⟩
  · intro p s hmem h1 h2
    obtain ⟨content, hu, hle, _, _, hbuf⟩ := (hsound _ hmem).loop_point h1 h2
    refine ⟨_, hbuf, ?_, ?_⟩
    · simp only [List.length_append, List.length_map, List.length_replicate]
      omega
    · rw [List.getElem?_append_right (by simp only [List.length_map]; omega),
        List.getElem?_replicate]
      simp only [List.length_map]
      rw [if_pos (by omega)]
  · intro s r hmem
    have hs : (Point.read, s) ∈ (read_until_eof allocOk src).trace :=
      (mem_reads _ s).mp (List.of_mem_zip hmem).1
    obtain ⟨hlt, hw, _⟩ := (hsound _ hs).read_point
    rw [requests_eq_reads] at hcount
    have hret := honours_zip _ _ hcount (s, r) hmem
    have hst := stored_le_of_ret_le hret
    simp only at hst
    refine ⟨hw, hst, ?_⟩
    rw [hw] at hst
    omega
  · intro s hmem
    obtain ⟨content, hu, hbuf⟩ := (hsound _ hmem).shrunk_point
    exact ⟨_, hbuf, by simp [hu]⟩
  · by_cases hstop : stops src = true
    · rw [run_result src hcount hsize hstop]
      exact fun h => by cases h
    · rw [run_blocked src hcount hsize (by simpa using hstop)]
      exact fun h => by cases h

/-- Witness of C12: a run of two reads and an end of stream. -/
theorem bounds_safety_witness :
    (read_until_eof allocOk [Reply.data [1, 2], Reply.data [3], Reply.eof]).result
      = Result.returned [some 1, some 2, some 3, some 0] ∧
    (read_until_eof allocOk [Reply.data [1, 2], Reply.data [3], Reply.eof]).result
      ≠ Result.fault :=
  ⟨by decide!,
    (bounds_safety [Reply.data [1, 2], Reply.data [3], Reply.eof]
      (by decide!) (by decide)).2.2.2⟩

/-- Claim C13: when the answers of the source are positive up to position `k`
and the answer at position `k` is not (the reads returning at most the count
requested, fewer than `2 ^ 63` bytes in all), the call returns, having issued
exactly `k + 1` reads; and the run is the same whatever the source would have
answered after position `k`. -/
theorem read_count (pre : List Reply) (r : Reply) (rest : List Reply)
    (hpre : ∀ x ∈ pre, 0 < x.ret) (hr : r.ret ≤ 0)
    (hcount : honours (requests (read_until_eof allocOk (pre ++ r :: rest)).trace)
      (pre ++ r :: rest) = true)
    (hsize : (delivered (pre ++ r :: rest)).length < 2 ^ 63) :
    (read_until_eof allocOk (pre ++ r :: rest)).result
      = Result.returned ((delivered pre).map some ++ [some 0]) ∧
    (reads (read_until_eof allocOk (pre ++ r :: rest)).trace).length = pre.length + 1 ∧
    (requests (read_until_eof allocOk (pre ++ r :: rest)).trace).length = pre.length + 1 ∧
    (∀ rest', read_until_eof allocOk (pre ++ r :: rest')
      = read_until_eof allocOk (pre ++ r :: rest)) := by
  have hdel : delivered (pre ++ r :: rest) = delivered pre := by
    clear hcount hsize
    induction pre with
    | nil => simp [delivered, not_lt.mpr hr]
    | cons p pre ih =>
      have hp := hpre p (List.mem_cons_self _ _)
      simp only [List.cons_append, delivered, hp, if_true, List.append_eq,
        ih (fun x hx => hpre x (List.mem_cons_of_mem _ hx))]
  have hres := run_result _ hcount hsize (stops_chunks pre r rest hr)
  rw [hdel] at hres
  have hreq : (requests (read_until_eof allocOk (pre ++ r :: rest)).trace).length
      = pre.length + 1 := by
    have h := loop_read_count (pre ++ r :: rest) 4096 [] 1 Fit.init (honours_of_run hcount)
      (by simpa using hsize) pre r rest rfl hpre hr
    rw [read_until_eof_eq, Run.after_trace, requests_append, List.length_append, h]
    simp [requests]
  refine ⟨hres, ?_, hreq, ?_⟩
  · rw [requests_eq_reads, List.length_map] at hreq
    exact hreq
  · intro rest'
    rw [read_until_eof_eq, read_until_eof_eq,
      loop_stop_congr allocOk pre r r rest' rest hr hr]

/-- Witness of C13: two positive answers, an error, and two answers that are
never asked for. -/
theorem read_count_witness :
    (read_until_eof allocOk ([Reply.data [1, 2], Reply.data [3]] ++
        Reply.err 4 :: [Reply.data [9], Reply.eof])).result
      = Result.returned ((delivered [Reply.data [1, 2], Reply.data [3]]).map some ++ [some 0]) ∧
    (reads (read_until_eof allocOk ([Reply.data [1, 2], Reply.data [3]] ++
        Reply.err 4 :: [Reply.data [9], Reply.eof])).trace).length = 2 + 1 :=
  have h := read_count [Reply.data [1, 2], Reply.data [3]] (Reply.err 4)
    [Reply.data [9], Reply.eof] (by decide) (by decide) (by decide!) (by decide)
  ⟨h.1, h.2.1⟩

/-- Claim C14: for bytes `d` delivered in chunks and followed by an end of
stream, the first cell of the returned buffer that holds `0` is at index
`d.length` exactly when no byte of `d` is `0`; when `d` has a `0`, first at
index `i`, the first such cell is at `i`, below `d.length`. -/
theorem terminator_scan (d : List Byte) (chunks : List (List Byte))
    (hd : chunks.flatten = d)
    (hpos : ∀ c ∈ chunks, 1 ≤ c.length)
    (hcount : honours
      (requests (read_until_eof allocOk (chunks.map Reply.data ++ [Reply.eof])).trace)
      (chunks.map Reply.data ++ [Reply.eof]) = true)
    (hsize : d.length < 2 ^ 63) :
    ∃ buf, (read_until_eof allocOk (chunks.map Reply.data ++ [Reply.eof])).result
        = Result.returned buf ∧
      (firstZero buf = d.length ↔ (0 : Byte) ∉ d) ∧
      (∀ i, i < d.length → d[i]? = some 0 → (∀ j, j < i → d[j]? ≠ some 0) →
        firstZero buf = i ∧ firstZero buf < d.length) := by
  have hdel := delivered_chunks chunks Reply.eof [] hpos (le_refl _)
  rw [hd] at hdel
  have hres := run_result _ hcount (by rw [hdel]; exact hsize)
    (stops_chunks _ Reply.eof [] (le_refl _))
  rw [hdel] at hres
  refine ⟨_, hres, ?_, ?_⟩
  · rw [firstZero_data, List.findIdx_eq_length]
    constructor
    · intro h hmem
      simpa using h 0 hmem
    · intro h x hx
      simp only [decide_eq_false_iff_not]
      rintro rfl
      exact h hx
  · intro i hi hzero hfirst
    rw [firstZero_data]
    have hidx : d.findIdx (fun b => decide (b = 0)) = i := by
      rw [List.findIdx_eq hi]
      rw [List.getElem?_eq_getElem hi] at hzero
      refine ⟨by simpa using hzero, ?_⟩
      intro j hj
      have hne := hfirst j hj
      rw [List.getElem?_eq_getElem (Nat.lt_trans hj hi)] at hne
      simpa using hne
    exact ⟨hidx, by rw [hidx]; exact hi⟩

/-- Witness of C14: three bytes of which the second is `0`. -/
theorem terminator_scan_witness :
    ∃ buf, (read_until_eof allocOk ([[5, 0], [6]].map Reply.data ++ [Reply.eof])).result
        = Result.returned buf ∧
      (firstZero buf = ([5, 0, 6] : List Byte).length ↔ (0 : Byte) ∉ ([5, 0, 6] : List Byte)) ∧
      (∀ i, i < ([5, 0, 6] : List Byte).length → ([5, 0, 6] : List Byte)[i]? = some 0 →
        (∀ j, j < i → ([5, 0, 6] : List Byte)[j]? ≠ some 0) →
        firstZero buf = i ∧ firstZero buf < ([5, 0, 6] : List Byte).length) :=
  terminator_scan [5, 0, 6] [[5, 0], [6]] rfl (by decide) (by decide!) (by decide)

end ReadUntilEof
